import Mathlib

/-!
ez_lan_file_share: name sanitizer, storage accessor and request handlers

A shallow embedding of `main.go`.

* Go strings are modelled as Lean `String`s (well-formed UTF-8 text); the
  character-level work is done on `List Char`.  The order of strings is the
  byte-wise order of their UTF-8 encodings.
* The platform is Unix: `os.PathSeparator` is `/`, there are no volume names.
  `strings.TrimSpace`, `strings.ReplaceAll`, `strings.TrimPrefix`,
  `filepath.Base`, `filepath.Clean` and `filepath.Join` follow the Go standard
  library.
* The storage state is the upload directory and the regular files its names
  lead to.  A name is a hard link to a regular file, a subdirectory or a symbolic
  link; file contents are kept by inode number, so that two names can lead to
  one file.  Device nodes, pipes and sockets appear in directory listings only.
  `os.Create` and `io.Copy` may fail for reasons of the environment, given by a
  `Fault`.
* A multipart form is the list of its parts as the client sent them;
  `FormFile` does what `mime/multipart` does with them.
* A handler's answer records what the handler does; the negotiation inside
  `http.ServeContent` (ranges, conditional requests) is not modelled.
-/

namespace LanShare

/-! ## Go standard library: `strings` -/

/-- The predicate `unicode.IsSpace`: the Latin-1 spaces and the code points with
the White_Space property. -/
def isSpace (c : Char) : Bool :=
  let n := c.toNat
  n == 0x09 || n == 0x0A || n == 0x0B || n == 0x0C || n == 0x0D || n == 0x20 ||
  n == 0x85 || n == 0xA0 || n == 0x1680 || (0x2000 ≤ n && n ≤ 0x200A) ||
  n == 0x2028 || n == 0x2029 || n == 0x202F || n == 0x205F || n == 0x3000

/-- Drop the longest suffix whose characters satisfy `p`. -/
def dropRightWhile (p : Char → Bool) (s : List Char) : List Char :=
  (s.reverse.dropWhile p).reverse

/-- Take the longest suffix whose characters satisfy `p`. -/
def takeRightWhile (p : Char → Bool) (s : List Char) : List Char :=
  (s.reverse.takeWhile p).reverse

/-- The function `strings.TrimSpace` on characters: leading and trailing white
space removed. -/
def trimSpaceChars (s : List Char) : List Char :=
  dropRightWhile isSpace (s.dropWhile isSpace)

/-- The function `strings.TrimSpace`. -/
def TrimSpace (s : String) : String := ⟨trimSpaceChars s.data⟩

/-- The replacement loop of `strings.Replace` with `n = -1` for a non-empty
`old`: scanning left to right, each non-overlapping occurrence of `old` is
replaced by `new`.  `skip` counts the characters of a matched occurrence that
are still to be passed over. -/
def replaceLoop (old new : List Char) : Nat → List Char → List Char
  | _, [] => []
  | skip + 1, _ :: cs => replaceLoop old new skip cs
  | 0, c :: cs =>
    if old.isPrefixOf (c :: cs) then new ++ replaceLoop old new (old.length - 1) cs
    else c :: replaceLoop old new 0 cs

/-- The function `strings.ReplaceAll` on characters.  For an empty `old`, Go
inserts `new` before every character and at the end. -/
def replaceAllChars (s old new : List Char) : List Char :=
  if old = [] then new ++ (s.map fun c => c :: new).flatten
  else replaceLoop old new 0 s

/-- The function `strings.ReplaceAll`. -/
def ReplaceAll (s old new : String) : String := ⟨replaceAllChars s.data old.data new.data⟩

/-- The function `strings.TrimPrefix`. -/
def TrimPrefix (s pre : String) : String :=
  if pre.data.isPrefixOf s.data then ⟨s.data.drop pre.data.length⟩ else s

/-! ## Go standard library: `os` and `path/filepath` (Unix) -/

/-- The constant `os.PathSeparator`. -/
def PathSeparator : Char := '/'

/-- The predicate `os.IsPathSeparator`. -/
def IsPathSeparator (c : Char) : Bool := c == PathSeparator

/-- The function `filepath.Base` on characters: `.` for the empty path;
otherwise trailing separators are stripped and the part after the last
separator is returned, `/` when nothing is left. -/
def baseChars (path : List Char) : List Char :=
  if path = [] then ['.']
  else
    let stripped := dropRightWhile IsPathSeparator path
    let last := takeRightWhile (fun c => !IsPathSeparator c) stripped
    if last = [] then [PathSeparator] else last

/-- The function `filepath.Base`. -/
def Base (path : String) : String := ⟨baseChars path.data⟩

/-- The `/`-separated elements of a path, empty ones included. -/
def splitSep : List Char → List (List Char)
  | [] => [[]]
  | c :: cs =>
    if IsPathSeparator c then [] :: splitSep cs
    else
      match splitSep cs with
      | [] => [[c]]
      | e :: es => (c :: e) :: es

/-- One round of the loop of `filepath.Clean`, on the element `e`.  `out` is the
output so far as a stack of elements, last one first.  Empty and `.` elements
are skipped; `..` removes the last real element when there is one, is kept on
a relative path that has nothing to remove, and is dropped at the root; any
other element is appended. -/
def cleanStep (rooted : Bool) (out : List (List Char)) (e : List Char) : List (List Char) :=
  if e = [] ∨ e = ['.'] then out
  else if e = ['.', '.'] then
    match out with
    | [] => if rooted then [] else [e]
    | top :: rest => if top = ['.', '.'] then (if rooted then out else e :: out) else rest
  else e :: out

/-- The function `strings.Join` with the separator `/`, on characters. -/
def joinWithSep : List (List Char) → List Char
  | [] => []
  | [e] => e
  | e :: es => e ++ PathSeparator :: joinWithSep es

/-- The output buffer of `filepath.Clean` as a string. -/
def cleanRender (rooted : Bool) (out : List (List Char)) : List Char :=
  if rooted then PathSeparator :: joinWithSep out.reverse
  else if out = [] then ['.'] else joinWithSep out.reverse

/-- Whether a path starts with a separator. -/
def isRooted : List Char → Bool
  | c :: _ => IsPathSeparator c
  | [] => false

/-- The function `filepath.Clean` on characters: the loop of the source walks
the path element by element, which `splitSep` and `cleanStep` reproduce. -/
def cleanChars (path : List Char) : List Char :=
  if path = [] then ['.']
  else
    let rooted := isRooted path
    cleanRender rooted ((splitSep path).foldl (cleanStep rooted) [])

/-- The function `filepath.Clean`. -/
def Clean (path : String) : String := ⟨cleanChars path.data⟩

/-- The function `filepath.Join` on characters: the elements from the first
non-empty one on are joined by separators and the result is cleaned; the empty
string when every element is empty. -/
def joinChars : List (List Char) → List Char
  | [] => []
  | e :: es => if e = [] then joinChars es else cleanChars (joinWithSep (e :: es))

/-- The function `filepath.Join`. -/
def Join (elem : List String) : String := ⟨joinChars (elem.map String.data)⟩

/-- The stack of elements `filepath.Clean` ends with. -/
def cleanStack (p : List Char) : List (List Char) :=
  (splitSep p).foldl (cleanStep (isRooted p)) []

/-- A name that is a real path element: not empty, not `.` or `..`, without
separator. -/
def IsElement (n : List Char) : Prop :=
  n ≠ [] ∧ n ≠ ['.'] ∧ n ≠ ['.', '.'] ∧ ∀ c ∈ n, c ≠ PathSeparator

instance (n : List Char) : Decidable (IsElement n) := by
  unfold IsElement
  infer_instance

/-! ## `main.go`: the name sanitizer -/

/-- The constant `uploadDir`. -/
def uploadDir : String := "shared_files"

/-- The function `sanitizeName` of `main.go`. -/
def sanitizeName (name : String) : String :=
  let name := Base (TrimSpace name)
  let name := ReplaceAll name (String.singleton PathSeparator) "_"
  name

/-- The string `filepath.Join` cleans for the upload directory. -/
def uploadRaw (b : List Char) : List Char :=
  if b = [] then uploadDir.data else b ++ PathSeparator :: uploadDir.data

/-- The function `sanitizeName` on characters. -/
def sanChars (x : List Char) : List Char :=
  (baseChars (trimSpaceChars x)).map fun c => if c = '/' then '_' else c

/-! ## The file system around the upload directory -/

/-- File contents: a sequence of bytes. -/
abbrev Bytes := List Nat

/-- Where a symbolic link leads: to a name in the upload directory (a relative
link to a sibling), to a regular file outside the upload directory, given by
its inode number, or to a directory. -/
inductive Link
  | sibling (name : String)
  | file (ino : Nat)
  | directory
deriving DecidableEq, Repr

/-- What a name in the upload directory is: a hard link to the regular file with
the given inode number, a subdirectory, or a symbolic link.  Other kinds of
entries (devices, pipes, sockets) appear in the model only in directory
listings, see `DirEntry`. -/
inductive Node
  | regular (ino : Nat)
  | directory
  | symlink (target : Link)
deriving DecidableEq, Repr

/-- The error kinds of the `os` calls used by the handlers. -/
inductive Errno
  | ENOENT
  | EISDIR
  | EACCES
  | ENOSPC
  | ELOOP
deriving DecidableEq, Repr

/-- The storage state: the global `baseDir`, the entries of the upload
directory, and the contents of the regular files, by inode number (a file that
is not listed is empty). -/
structure FS where
  baseDir : String
  entries : List (String × Node)
  inodes : List (Nat × Bytes)
deriving DecidableEq, Repr

/-- The value bound to a key. -/
def lookupKey {α β : Type} [DecidableEq α] (key : α) : List (α × β) → Option β
  | [] => none
  | (k, v) :: es => if k = key then some v else lookupKey key es

/-- Bind a key to a value, replacing an existing binding in place. -/
def setKey {α β : Type} [DecidableEq α] (key : α) (v : β) : List (α × β) → List (α × β)
  | [] => [(key, v)]
  | (k, w) :: es => if k = key then (k, v) :: es else (k, w) :: setKey key v es

/-- The content of the regular file with the given inode number. -/
def FS.content (fs : FS) (ino : Nat) : Bytes := (lookupKey ino fs.inodes).getD []

/-- The storage state with the content of one regular file replaced. -/
def FS.setContent (fs : FS) (ino : Nat) (content : Bytes) : FS :=
  { fs with inodes := setKey ino content fs.inodes }

/-- The storage state with a new, empty regular file under a new name. -/
def FS.addFile (fs : FS) (name : String) (ino : Nat) : FS :=
  { fs with entries := setKey name (.regular ino) fs.entries, inodes := setKey ino [] fs.inodes }

/-- The inode numbers a node names. -/
def Node.inos : Node → List Nat
  | .regular ino => [ino]
  | .symlink (.file ino) => [ino]
  | _ => []

/-- The inode numbers in use. -/
def FS.usedInos (fs : FS) : List Nat :=
  fs.inodes.map Prod.fst ++ fs.entries.flatMap fun e => e.2.inos

/-- An inode number that is not in use. -/
def FS.freshIno (fs : FS) : Nat := fs.usedInos.foldr max 0 + 1

/-- The number of symbolic links the kernel follows on one path (Linux). -/
def maxLinks : Nat := 40

/-- Where a name of the upload directory leads once symbolic links are
followed: an existing regular file, a directory, a name of the upload directory
under which nothing exists, or nowhere. -/
inductive Resolved
  | file (ino : Nat)
  | directory
  | missing (name : String)
  | error (e : Errno)
deriving DecidableEq, Repr

/-- Follow symbolic links from a name, looking up at most `fuel` names.  A
sibling link whose target is not the plain name of an entry leads nowhere. -/
def followLinks (entries : List (String × Node)) : Nat → String → Resolved
  | 0, _ => .error .ELOOP
  | fuel + 1, name =>
    match lookupKey name entries with
    | none => .missing name
    | some (.regular ino) => .file ino
    | some .directory => .directory
    | some (.symlink (.file ino)) => .file ino
    | some (.symlink .directory) => .directory
    | some (.symlink (.sibling target)) =>
      if IsElement target.data then followLinks entries fuel target else .error .ENOENT

/-- Where a name of the upload directory leads. -/
def FS.resolve (fs : FS) (name : String) : Resolved :=
  followLinks fs.entries (maxLinks + 1) name

/-- The path of the upload directory, `filepath.Join(baseDir, uploadDir)`. -/
def FS.uploadPath (fs : FS) : String := Join [fs.baseDir, uploadDir]

/-- Where a path leads. -/
inductive Location
  | uploadDir
  | parentDir
  | entry (name : String)
  | outside
deriving DecidableEq, Repr

/-- Path resolution: the upload directory itself, a name directly inside it,
its parent `baseDir`, or something else.  Paths that lead elsewhere are
outside the modelled part of the file system. -/
def FS.locate (fs : FS) (path : String) : Location :=
  if path = fs.uploadPath then .uploadDir
  else if (fs.uploadPath.data ++ [PathSeparator]).isPrefixOf path.data then
    let n := path.data.drop (fs.uploadPath.data.length + 1)
    if n = [] ∨ n = ['.'] then .uploadDir
    else if n = ['.', '.'] then .parentDir
    else if PathSeparator ∈ n then .outside
    else .entry ⟨n⟩
  else if path = Clean fs.baseDir then .parentDir
  else .outside

/-- What `os.Open` hands back: a regular file with its content, or a
directory. -/
inductive OpenFile
  | regular (content : Bytes)
  | directory
deriving DecidableEq, Repr

/-- Open a name of the upload directory for reading, following links. -/
def FS.openEntry (fs : FS) (name : String) : Except Errno OpenFile :=
  match fs.resolve name with
  | .file ino => .ok (.regular (fs.content ino))
  | .directory => .ok .directory
  | .missing _ => .error .ENOENT
  | .error e => .error e

/-- The call `os.Open`: succeeds on an existing regular file and on a
directory (the handle then refers to the directory). -/
def osOpen (fs : FS) (path : String) : Except Errno OpenFile :=
  match fs.locate path with
  | .uploadDir => .ok .directory
  | .parentDir => .ok .directory
  | .entry n => fs.openEntry n
  | .outside => .error .ENOENT

/-- What can go wrong in the environment during an upload: nothing, `os.Create`
fails, or `io.Copy` fails after `written` bytes. -/
inductive Fault
  | none
  | create
  | copy (written : Nat)
deriving DecidableEq, Repr

/-- Open a name of the upload directory with create and truncate, following
links: an existing regular file is truncated, a file that does not exist is
created empty under the name the links lead to, a directory is refused.  The
result is the new state and the inode number of the open file. -/
def FS.createEntry (fs : FS) (name : String) : Except Errno (FS × Nat) :=
  match fs.resolve name with
  | .file ino => .ok (fs.setContent ino [], ino)
  | .missing target => .ok (fs.addFile target fs.freshIno, fs.freshIno)
  | .directory => .error .EISDIR
  | .error e => .error e

/-- The call `os.Create`. -/
def osCreate (fs : FS) (path : String) (fault : Fault) : Except Errno (FS × Nat) :=
  if fault = .create then .error .EACCES
  else
    match fs.locate path with
    | .uploadDir => .error .EISDIR
    | .parentDir => .error .EISDIR
    | .entry n => fs.createEntry n
    | .outside => .error .ENOENT

/-- Write `data` at the start of an open file: the bytes of the file beyond the
length of `data` stay. -/
def FS.writeAt (fs : FS) (ino : Nat) (data : Bytes) : FS :=
  fs.setContent ino (data ++ (fs.content ino).drop data.length)

/-- The call `io.Copy(out, file)` into the file just opened: all of `content` is
written from the start of the file, or only its first `written` bytes when the
copy fails. -/
def ioCopy (fs : FS) (out : Nat) (content : Bytes) (fault : Fault) : Except Errno Unit × FS :=
  match fault with
  | .copy written => (.error .ENOSPC, fs.writeAt out (content.take written))
  | _ => (.ok (), fs.writeAt out content)

/-! ## Directory listings -/

/-- The type bits of `fs.FileMode`. -/
def ModeDir : Nat := 2 ^ 31
def ModeSymlink : Nat := 2 ^ 27
def ModeDevice : Nat := 2 ^ 26
def ModeNamedPipe : Nat := 2 ^ 25
def ModeSocket : Nat := 2 ^ 24
def ModeCharDevice : Nat := 2 ^ 21
def ModeIrregular : Nat := 2 ^ 19

/-- The mask `fs.ModeType`. -/
def ModeType : Nat :=
  ModeDir ||| ModeSymlink ||| ModeNamedPipe ||| ModeSocket ||| ModeDevice ||| ModeCharDevice |||
    ModeIrregular

/-- The method `FileMode.IsRegular`. -/
def IsRegular (m : Nat) : Bool := m &&& ModeType == 0

/-- A directory entry as `os.ReadDir` reports it: name and type bits. -/
structure DirEntry where
  name : String
  type : Nat
deriving DecidableEq, Repr

/-- The UTF-8 encoding of a character. -/
def utf8EncodeChar (c : Char) : List Nat :=
  let v := c.toNat
  if v < 0x80 then [v]
  else if v < 0x800 then [0xC0 + v / 0x40, 0x80 + v % 0x40]
  else if v < 0x10000 then [0xE0 + v / 0x1000, 0x80 + v / 0x40 % 0x40, 0x80 + v % 0x40]
  else [0xF0 + v / 0x40000, 0x80 + v / 0x1000 % 0x40, 0x80 + v / 0x40 % 0x40, 0x80 + v % 0x40]

/-- The bytes of a Go string. -/
def utf8Bytes (s : String) : List Nat := s.data.flatMap utf8EncodeChar

/-- Lexicographic comparison of byte sequences, a proper prefix first. -/
def lexLE : List Nat → List Nat → Bool
  | [], _ => true
  | _ :: _, [] => false
  | a :: as, b :: bs => a < b || (a == b && lexLE as bs)

/-- The order of Go strings, `a <= b`: byte-wise lexicographic. -/
def StringLE (a b : String) : Prop := lexLE (utf8Bytes a) (utf8Bytes b) = true

instance : DecidableRel StringLE := fun a b =>
  inferInstanceAs (Decidable (lexLE (utf8Bytes a) (utf8Bytes b) = true))

/-- The function `sort.Strings`: the strings in ascending order. -/
def sortStrings (l : List String) : List String := l.insertionSort StringLE

/-- The type bits `os.ReadDir` reports for a node. -/
def Node.type : Node → Nat
  | .regular _ => 0
  | .directory => ModeDir
  | .symlink _ => ModeSymlink

/-- The call `os.ReadDir` on the upload directory: its entries with their
types, sorted by name. -/
def osReadDir (fs : FS) : Except Errno (List DirEntry) :=
  .ok ((fs.entries.map fun e => DirEntry.mk e.1 e.2.type).insertionSort
    fun a b => StringLE a.name b.name)

/-- The function `listFiles` of `main.go`, on the outcome of
`os.ReadDir(dir)`. -/
def listFiles (readDir : Except Errno (List DirEntry)) : Except Errno (List String) :=
  match readDir with
  | .error err => .error err
  | .ok entries =>
    let files := entries.foldl
      (fun files entry => if IsRegular entry.type then files ++ [entry.name] else files) []
    .ok (sortStrings files)

/-- The two ways an upload under the name `n` can have stored `content`: in the
existing file the name leads to, or in a new file under the missing name it
leads to. -/
def Stored (fs fs' : FS) (n : String) (content : Bytes) : Prop :=
  (∃ i, fs.resolve n = .file i ∧ fs' = fs.setContent i content) ∨
  (∃ t, fs.resolve n = .missing t ∧
    fs' = (fs.addFile t fs.freshIno).setContent fs.freshIno content)

/-! ## `main.go`: the handlers -/

/-- A part of a multipart form as the client sent it: the name of the form
field, the `filename` parameter (empty when there is none) and the content. -/
structure Part where
  field : String
  filename : String
  content : Bytes
deriving DecidableEq, Repr

/-- The type `multipart.FileHeader` with the content of the file. -/
structure FileHeader where
  filename : String
  content : Bytes
deriving DecidableEq, Repr

/-- The part of an HTTP request the handlers look at: the method, `URL.Path`,
and the parts of the multipart form, `none` when `ParseMultipartForm` fails. -/
structure Request where
  method : String
  path : String
  form : Option (List Part)
deriving DecidableEq, Repr

/-- What a handler answers. -/
inductive Response
  | error (msg : String) (code : Nat)
  | notFound
  | redirect (url : String) (code : Nat)
  | serveContent (disposition : String) (name : String) (file : OpenFile)
deriving DecidableEq, Repr

/-- The bytes `http.ServeContent` serves: those of the regular file it is handed,
sent whole in answer to a request without range or conditional headers.  The
other answers carry no file. -/
def Response.entity : Response → Option Bytes
  | .serveContent _ _ (.regular content) => some content
  | _ => none

/-- The first file part of a form field.  For `mime/multipart` a part without
file name is a value, not a file. -/
def filePart (form : List Part) (key : String) : Option Part :=
  form.find? fun p => p.field = key ∧ p.filename ≠ ""

/-- The method `Request.FormFile`: the header of the first file of the given
field.  Its `Filename` is `Part.FileName()`, which is `filepath.Base` of the
file name the client sent. -/
def FormFile (form : List Part) (key : String) : Option FileHeader :=
  (filePart form key).map fun p => ⟨Base p.filename, p.content⟩

/-- The function `handleUpload` of `main.go`. -/
def handleUpload (fs : FS) (r : Request) (fault : Fault) : Response × FS :=
  if r.method ≠ "POST" then (.error "方法不支持" 405, fs)
  else
    match r.form with
    | none => (.error "解析表单失败" 400, fs)
    | some form =>
      match FormFile form "file" with
      | none => (.error "未选择文件" 400, fs)
      | some header =>
        let name := sanitizeName header.filename
        if name = "" then (.error "文件名无效" 400, fs)
        else
          let destPath := Join [fs.baseDir, uploadDir, name]
          match osCreate fs destPath fault with
          | .error _ => (.error "保存文件失败" 500, fs)
          | .ok (fs1, out) =>
            match ioCopy fs1 out header.content fault with
            | (.error _, fs2) => (.error "写入文件失败" 500, fs2)
            | (.ok _, fs2) => (.redirect "/" 303, fs2)

/-- The function `handleDownload` of `main.go`.  The negotiation inside
`http.ServeContent` is not modelled: the answer records the file handed to
it. -/
def handleDownload (fs : FS) (r : Request) : Response :=
  if r.method ≠ "GET" then .error "方法不支持" 405
  else
    let name := TrimPrefix r.path "/files/"
    let name := sanitizeName name
    if name = "" then .notFound
    else
      let filePath := Join [fs.baseDir, uploadDir, name]
      match osOpen fs filePath with
      | .error _ => .notFound
      | .ok f => .serveContent ("attachment; filename=\"" ++ name ++ "\"") name f

/-- A `POST /upload` request with one part in the field `file`, under the file
name the client sends. -/
def uploadRequest (filename : String) (content : Bytes) : Request :=
  { method := "POST", path := "/upload", form := some [⟨"file", filename, content⟩] }

/-- A `GET /files/<name>` request. -/
def downloadRequest (name : String) : Request :=
  { method := "GET", path := "/files/" ++ name, form := none }

/-! ## The library functions on the examples of their documentation -/

theorem Base_examples :
    Base "/foo/bar/baz.js" = "baz.js" ∧ Base "/foo/bar/baz/" = "baz" ∧ Base "dev.txt" = "dev.txt" ∧
    Base "../todo.txt" = "todo.txt" ∧ Base ".." = ".." ∧ Base "." = "." ∧ Base "/" = "/" ∧
    Base "" = "." := by
  decide

theorem Clean_examples :
    Clean "a/c" = "a/c" ∧ Clean "a//c" = "a/c" ∧ Clean "a/c/." = "a/c" ∧
    Clean "a/c/b/.." = "a/c" ∧ Clean "/../a/c" = "/a/c" ∧ Clean "/../a/b/../././/c" = "/a/c" ∧
    Clean "" = "." ∧ Clean "../../a" = "../../a" ∧ Clean "a/../.." = ".." ∧ Clean "/" = "/" := by
  decide

theorem Join_examples :
    Join ["a", "b", "c"] = "a/b/c" ∧ Join ["a", "b/c"] = "a/b/c" ∧ Join ["a/b", "c"] = "a/b/c" ∧
    Join ["a/b", "/c"] = "a/b/c" ∧ Join ["a/b", "../../../xyz"] = "../xyz" ∧
    Join ["", ""] = "" ∧ Join ["a", ""] = "a" ∧ Join ["", "a"] = "a" := by
  decide

theorem strings_examples :
    TrimSpace " \t\n Hello, Gophers \n\t\r\n" = "Hello, Gophers" ∧
    ReplaceAll "oink oink oink" "k" "ky" = "oinky oinky oinky" ∧
    ReplaceAll "oink oink oink" "oink" "moo" = "moo moo moo" ∧
    ReplaceAll "abc" "" "_" = "_a_b_c_" ∧
    TrimPrefix "/files/a.txt" "/files/" = "a.txt" ∧ TrimPrefix "/other" "/files/" = "/other" := by
  decide

theorem sanitizeName_examples :
    sanitizeName "report.pdf" = "report.pdf" ∧ sanitizeName "../../etc/passwd" = "passwd" ∧
    sanitizeName "a/b/" = "b" ∧ sanitizeName "  notes.txt  " = "notes.txt" := by
  decide

/-! ## Lemmas on the string functions -/

theorem dropWhile_nil_or_head (p : Char → Bool) (l : List Char) :
    l.dropWhile p = [] ∨ ∃ c rest, l.dropWhile p = c :: rest ∧ p c = false := by
  induction l with
  | nil => simp
  | cons a l ih =>
    by_cases h : p a = true
    · simpa [List.dropWhile_cons, h] using ih
    · right
      exact ⟨a, l, by simp [List.dropWhile_cons, h], by simpa using h⟩

theorem dropRightWhile_append_takeRightWhile (p : Char → Bool) (s : List Char) :
    dropRightWhile p s ++ takeRightWhile p s = s := by
  unfold dropRightWhile takeRightWhile
  rw [← List.reverse_append, List.takeWhile_append_dropWhile, List.reverse_reverse]

theorem mem_takeRightWhile (p : Char → Bool) (s : List Char) (c : Char)
    (h : c ∈ takeRightWhile p s) : p c = true := by
  unfold takeRightWhile at h
  rw [List.mem_reverse] at h
  exact List.mem_takeWhile_imp h

theorem dropRightWhile_nil_or_last (p : Char → Bool) (s : List Char) :
    dropRightWhile p s = [] ∨ ∃ init c, dropRightWhile p s = init ++ [c] ∧ p c = false := by
  unfold dropRightWhile
  rcases dropWhile_nil_or_head p s.reverse with h | ⟨c, rest, h, hc⟩
  · left; simp [h]
  · right
    exact ⟨rest.reverse, c, by simp [h], hc⟩

theorem dropRightWhile_eq_self (p : Char → Bool) (s : List Char)
    (h : ∀ c ∈ s, p c = false) : dropRightWhile p s = s := by
  unfold dropRightWhile
  cases hs : s.reverse with
  | nil =>
    have : s = [] := by simpa using hs
    simp [this]
  | cons a l =>
    have ha : p a = false := h a (by rw [← List.mem_reverse, hs]; simp)
    rw [List.dropWhile_cons, ha]
    simp [← hs]

theorem takeRightWhile_eq_self (p : Char → Bool) (s : List Char)
    (h : ∀ c ∈ s, p c = true) : takeRightWhile p s = s := by
  unfold takeRightWhile
  have : s.reverse.takeWhile p = s.reverse := by
    rw [List.takeWhile_eq_self_iff]
    intro c hc
    exact h c (List.mem_reverse.mp hc)
  rw [this, List.reverse_reverse]

theorem replaceLoop_separator (s : List Char) :
    replaceLoop ['/'] ['_'] 0 s = s.map fun c => if c = '/' then '_' else c := by
  induction s with
  | nil => rfl
  | cons c cs ih =>
    by_cases h : c = '/'
    · subst h
      simp [replaceLoop, List.isPrefixOf, ih]
    · simp [replaceLoop, List.isPrefixOf, ih, h]
      intro h2; exact absurd h2.symm h

theorem sanitizeName_data (s : String) :
    (sanitizeName s).data =
      (baseChars (trimSpaceChars s.data)).map fun c => if c = '/' then '_' else c := by
  show replaceAllChars (baseChars (trimSpaceChars s.data)) ['/'] ['_'] = _
  unfold replaceAllChars
  simp [replaceLoop_separator]

theorem baseChars_ne_nil (path : List Char) : baseChars path ≠ [] := by
  unfold baseChars
  split
  · simp
  · simp only
    split
    · simp
    · assumption

theorem not_mem_sanitizeName (s : String) : PathSeparator ∉ (sanitizeName s).data := by
  rw [sanitizeName_data]
  intro h
  obtain ⟨c, -, hc⟩ := List.mem_map.mp h
  by_cases hsep : c = '/'
  · simp [hsep, PathSeparator] at hc
  · simp [hsep, PathSeparator] at hc

/-- On a path with a character that is no separator, `filepath.Base` splits the
path into a directory prefix, the last element and trailing separators. -/
theorem baseChars_split (t : List Char) (h : ∃ c ∈ t, c ≠ PathSeparator) :
    ∃ pre suf : List Char,
      t = pre ++ baseChars t ++ suf ∧
      (∀ c ∈ baseChars t, c ≠ PathSeparator) ∧
      (∀ c ∈ suf, c = PathSeparator) ∧
      (pre = [] ∨ pre.getLast? = some PathSeparator) := by
  obtain ⟨c0, hc0, hsep0⟩ := h
  have hne : t ≠ [] := List.ne_nil_of_mem hc0
  have hsuf : ∀ c ∈ takeRightWhile IsPathSeparator t, c = PathSeparator := by
    intro c hc
    simpa [IsPathSeparator] using mem_takeRightWhile _ _ _ hc
  have hsplit := dropRightWhile_append_takeRightWhile IsPathSeparator t
  -- the stripped path ends in a character that is no separator
  obtain ⟨init, c, hstrip, hc⟩ : ∃ init c, dropRightWhile IsPathSeparator t = init ++ [c] ∧
      IsPathSeparator c = false := by
    rcases dropRightWhile_nil_or_last IsPathSeparator t with h0 | h1
    · rw [h0, List.nil_append] at hsplit
      rw [← hsplit] at hc0
      exact absurd (hsuf c0 hc0) hsep0
    · exact h1
  have hlast : takeRightWhile (fun c => !IsPathSeparator c) (init ++ [c]) ≠ [] := by
    unfold takeRightWhile
    simp [List.takeWhile_cons, hc]
  have hbase : baseChars t =
      takeRightWhile (fun c => !IsPathSeparator c) (dropRightWhile IsPathSeparator t) := by
    unfold baseChars
    rw [if_neg hne]
    simp only
    rw [hstrip, if_neg hlast]
  refine ⟨dropRightWhile (fun c => !IsPathSeparator c) (dropRightWhile IsPathSeparator t),
    takeRightWhile IsPathSeparator t, ?_, ?_, hsuf, ?_⟩
  · rw [hbase, dropRightWhile_append_takeRightWhile, hsplit]
  · intro c hc
    rw [hbase] at hc
    have := mem_takeRightWhile _ _ _ hc
    simpa [IsPathSeparator] using this
  · rcases dropRightWhile_nil_or_last (fun c => !IsPathSeparator c)
      (dropRightWhile IsPathSeparator t) with h0 | ⟨i, d, hd, hdc⟩
    · exact Or.inl h0
    · right
      rw [hd]
      simp [IsPathSeparator] at hdc
      simp [hdc]

theorem map_separator_eq_self (l : List Char) (h : ∀ c ∈ l, c ≠ PathSeparator) :
    (l.map fun c => if c = '/' then '_' else c) = l := by
  conv_rhs => rw [← List.map_id l]
  apply List.map_congr_left
  intro c hc
  have : c ≠ '/' := h c hc
  simp [this]

/-- C2. For every string `s`, `sanitizeName s` contains no occurrence of the
path-separator character. -/
theorem sanitizeName_no_separator (s : String) : PathSeparator ∉ (sanitizeName s).data := by
  rw [sanitizeName_data]
  intro h
  obtain ⟨c, -, hc⟩ := List.mem_map.mp h
  by_cases hsep : c = '/'
  · simp [hsep, PathSeparator] at hc
  · simp [hsep, PathSeparator] at hc

/-- C9. When the trimmed form `t` of `s` has a character that is no separator,
`sanitizeName s` is the final path component of `t`: `t` is a directory prefix
(empty or ending in a separator), then `sanitizeName s`, a non-empty run of
characters that are no separators, then only separators. -/
theorem sanitizeName_final_component (s : String)
    (h : ∃ c ∈ (TrimSpace s).data, c ≠ PathSeparator) :
    ∃ pre suf : List Char,
      (TrimSpace s).data = pre ++ (sanitizeName s).data ++ suf ∧
      (sanitizeName s).data ≠ [] ∧
      (∀ c ∈ (sanitizeName s).data, c ≠ PathSeparator) ∧
      (∀ c ∈ suf, c = PathSeparator) ∧
      (pre = [] ∨ pre.getLast? = some PathSeparator) := by
  obtain ⟨pre, suf, h1, h2, h3, h4⟩ := baseChars_split (trimSpaceChars s.data) h
  have hs : (sanitizeName s).data = baseChars (trimSpaceChars s.data) := by
    rw [sanitizeName_data, map_separator_eq_self _ h2]
  refine ⟨pre, suf, ?_, ?_, ?_, h3, h4⟩
  · rw [hs]; exact h1
  · rw [hs]; exact baseChars_ne_nil _
  · rw [hs]; exact h2

/-- The final component of ` ../../etc/passwd/ `. -/
theorem sanitizeName_final_component_witness :
    (∃ c ∈ (TrimSpace " ../../etc/passwd/ ").data, c ≠ PathSeparator) ∧
    ∃ pre suf : List Char,
      (TrimSpace " ../../etc/passwd/ ").data = pre ++ (sanitizeName " ../../etc/passwd/ ").data ++ suf ∧
      (sanitizeName " ../../etc/passwd/ ").data ≠ [] ∧
      (∀ c ∈ (sanitizeName " ../../etc/passwd/ ").data, c ≠ PathSeparator) ∧
      (∀ c ∈ suf, c = PathSeparator) ∧
      (pre = [] ∨ pre.getLast? = some PathSeparator) :=
  ⟨⟨'.', by decide, by decide⟩,
    sanitizeName_final_component " ../../etc/passwd/ " ⟨'.', by decide, by decide⟩⟩

/-! ## Lemmas on `filepath.Clean` and `filepath.Join` -/

theorem cleanChars_eq (p : List Char) :
    cleanChars p = cleanRender (isRooted p) (cleanStack p) := by
  unfold cleanChars cleanStack
  split
  · next h => subst h; rfl
  · rfl

theorem splitSep_ne_nil (s : List Char) : splitSep s ≠ [] := by
  cases s with
  | nil => simp [splitSep]
  | cons c cs =>
    unfold splitSep
    split
    · simp
    · split <;> simp

theorem splitSep_append (a b : List Char) :
    splitSep (a ++ PathSeparator :: b) = splitSep a ++ splitSep b := by
  induction a with
  | nil => simp [splitSep, IsPathSeparator]
  | cons c cs ih =>
    by_cases hc : IsPathSeparator c = true
    · simp [splitSep, hc, ih]
    · simp only [List.cons_append, splitSep, hc, ih]
      cases h : splitSep cs with
      | nil => exact absurd h (splitSep_ne_nil cs)
      | cons e es => simp [ih, h]

theorem splitSep_eq_singleton (n : List Char) (h : ∀ c ∈ n, c ≠ PathSeparator) :
    splitSep n = [n] := by
  induction n with
  | nil => rfl
  | cons c cs ih =>
    have hc : IsPathSeparator c = false := by
      simpa [IsPathSeparator] using h c (List.mem_cons_self _ _)
    have := ih fun d hd => h d (List.mem_cons_of_mem _ hd)
    simp [splitSep, hc, this]

theorem joinWithSep_concat (xs : List (List Char)) (n : List Char) (h : xs ≠ []) :
    joinWithSep (xs ++ [n]) = joinWithSep xs ++ PathSeparator :: n := by
  induction xs with
  | nil => exact absurd rfl h
  | cons x xs ih =>
    cases xs with
    | nil => simp [joinWithSep]
    | cons y ys =>
      have := ih (by simp)
      simp only [List.cons_append] at this ⊢
      simp [joinWithSep, this]

theorem isRooted_append (p q : List Char) (hp : p ≠ []) : isRooted (p ++ q) = isRooted p := by
  cases p with
  | nil => exact absurd rfl hp
  | cons c cs => rfl

theorem cleanStack_append (p n : List Char) (hp : p ≠ []) (hn : ∀ c ∈ n, c ≠ PathSeparator) :
    cleanStack (p ++ PathSeparator :: n) = cleanStep (isRooted p) (cleanStack p) n := by
  unfold cleanStack
  rw [isRooted_append p _ hp, splitSep_append, splitSep_eq_singleton n hn, List.foldl_append]
  rfl

theorem cleanRender_push (r : Bool) (S : List (List Char)) (n : List Char) (hS : S ≠ []) :
    cleanRender r (n :: S) = cleanRender r S ++ PathSeparator :: n := by
  have hrev : S.reverse ≠ [] := by simpa using hS
  unfold cleanRender
  simp only [List.reverse_cons, joinWithSep_concat _ n hrev]
  cases r <;> simp [hS]

theorem uploadDir_isElement : IsElement uploadDir.data := by
  refine ⟨by decide, by decide, by decide, ?_⟩
  decide

theorem cleanStep_element (r : Bool) (S : List (List Char)) (n : List Char) (h : IsElement n) :
    cleanStep r S n = n :: S := by
  obtain ⟨h1, h2, h3, -⟩ := h
  simp [cleanStep, h1, h2, h3]

theorem uploadRaw_ne_nil (b : List Char) : uploadRaw b ≠ [] := by
  unfold uploadRaw
  split
  · decide
  · simp

theorem joinChars_upload (b : List Char) :
    joinChars [b, uploadDir.data] = cleanChars (uploadRaw b) := by
  have hu : uploadDir.data ≠ [] := by decide
  unfold uploadRaw
  by_cases hb : b = []
  · simp [joinChars, hb, hu, joinWithSep]
  · simp [joinChars, hb, joinWithSep]

theorem joinChars_upload_name (b n : List Char) :
    joinChars [b, uploadDir.data, n] = cleanChars (uploadRaw b ++ PathSeparator :: n) := by
  have hu : uploadDir.data ≠ [] := by decide
  unfold uploadRaw
  by_cases hb : b = []
  · simp [joinChars, hb, hu, joinWithSep]
  · simp [joinChars, hb, joinWithSep]

theorem isRooted_uploadRaw (b : List Char) : isRooted (uploadRaw b) = isRooted b := by
  unfold uploadRaw
  split
  · next h => subst h; decide
  · next h => exact isRooted_append b _ h

theorem cleanStack_uploadRaw (b : List Char) :
    cleanStack (uploadRaw b) = uploadDir.data :: cleanStack b := by
  unfold uploadRaw
  split
  · next h => subst h; decide
  · next h =>
    rw [cleanStack_append b _ h uploadDir_isElement.2.2.2,
      cleanStep_element _ _ _ uploadDir_isElement]

theorem joinChars_upload_eq (b : List Char) :
    joinChars [b, uploadDir.data] = cleanRender (isRooted b) (uploadDir.data :: cleanStack b) := by
  rw [joinChars_upload, cleanChars_eq, isRooted_uploadRaw, cleanStack_uploadRaw]

theorem joinChars_upload_name_eq (b n : List Char) (hn : ∀ c ∈ n, c ≠ PathSeparator) :
    joinChars [b, uploadDir.data, n] =
      cleanRender (isRooted b) (cleanStep (isRooted b) (uploadDir.data :: cleanStack b) n) := by
  rw [joinChars_upload_name, cleanChars_eq, isRooted_append _ _ (uploadRaw_ne_nil b),
    cleanStack_append _ _ (uploadRaw_ne_nil b) hn, isRooted_uploadRaw, cleanStack_uploadRaw]

/-- Joining an element to the upload directory appends it to the directory's
path. -/
theorem joinChars_element (b n : List Char) (hn : IsElement n) :
    joinChars [b, uploadDir.data, n] = joinChars [b, uploadDir.data] ++ PathSeparator :: n := by
  rw [joinChars_upload_name_eq b n hn.2.2.2, cleanStep_element _ _ _ hn,
    cleanRender_push _ _ _ (by simp), joinChars_upload_eq]

/-- Joining `.` to the upload directory gives the upload directory. -/
theorem joinChars_dot (b : List Char) :
    joinChars [b, uploadDir.data, ['.']] = joinChars [b, uploadDir.data] := by
  rw [joinChars_upload_name_eq b _ (by decide), joinChars_upload_eq]
  simp [cleanStep]

/-- Joining `..` to the upload directory gives its parent. -/
theorem joinChars_dotdot (b : List Char) :
    joinChars [b, uploadDir.data, ['.', '.']] = cleanChars b := by
  have hu : uploadDir.data ≠ ['.', '.'] := by decide
  rw [joinChars_upload_name_eq b _ (by decide), cleanChars_eq]
  simp [cleanStep, hu]

theorem cleanRender_length_lt (r : Bool) (S : List (List Char)) :
    (cleanRender r S).length < (cleanRender r (uploadDir.data :: S)).length := by
  by_cases hS : S = []
  · subst hS
    cases r <;> decide
  · rw [cleanRender_push _ _ _ hS]
    simp

theorem cleanChars_length_lt (b : List Char) :
    (cleanChars b).length < (joinChars [b, uploadDir.data]).length := by
  rw [cleanChars_eq, joinChars_upload_eq]
  exact cleanRender_length_lt _ _

theorem Join_upload_data (b : String) :
    (Join [b, uploadDir]).data = joinChars [b.data, uploadDir.data] := rfl

theorem Join_upload_name_data (b n : String) :
    (Join [b, uploadDir, n]).data = joinChars [b.data, uploadDir.data, n.data] := rfl

theorem string_eq_of_data {a b : String} (h : a.data = b.data) : a = b := by
  cases a; cases b; simp_all

/-- A real element joined to the upload directory resolves to the entry of
that name. -/
theorem locate_element (fs : FS) (n : String) (hn : IsElement n.data) :
    fs.locate (Join [fs.baseDir, uploadDir, n]) = .entry n := by
  have hdata : (Join [fs.baseDir, uploadDir, n]).data =
      fs.uploadPath.data ++ PathSeparator :: n.data := by
    rw [Join_upload_name_data, joinChars_element _ _ hn]
    rfl
  obtain ⟨h1, h2, h3, h4⟩ := hn
  have hne : Join [fs.baseDir, uploadDir, n] ≠ fs.uploadPath := by
    intro h
    have := congrArg (fun s => s.data.length) h
    simp [hdata] at this
  have hpre : (fs.uploadPath.data ++ [PathSeparator]).isPrefixOf
      (Join [fs.baseDir, uploadDir, n]).data = true := by
    rw [List.isPrefixOf_iff_prefix, hdata]
    exact ⟨n.data, by simp⟩
  have hdrop : (Join [fs.baseDir, uploadDir, n]).data.drop (fs.uploadPath.data.length + 1) =
      n.data := by
    rw [hdata]
    have : fs.uploadPath.data ++ PathSeparator :: n.data =
        (fs.uploadPath.data ++ [PathSeparator]) ++ n.data := by simp
    rw [this, List.drop_left']
    simp
  have hmem : PathSeparator ∉ n.data := fun h => h4 _ h rfl
  unfold FS.locate
  rw [if_neg hne, if_pos hpre]
  simp only [hdrop]
  rw [if_neg (by simp [h1, h2]), if_neg h3, if_neg hmem]

/-- The name `.` joined to the upload directory resolves to the directory
itself. -/
theorem locate_dot (fs : FS) : fs.locate (Join [fs.baseDir, uploadDir, "."]) = .uploadDir := by
  have : Join [fs.baseDir, uploadDir, "."] = fs.uploadPath := by
    apply string_eq_of_data
    rw [Join_upload_name_data]
    exact joinChars_dot _
  unfold FS.locate
  rw [if_pos this]

/-- The name `..` joined to the upload directory resolves to the parent. -/
theorem locate_dotdot (fs : FS) : fs.locate (Join [fs.baseDir, uploadDir, ".."]) = .parentDir := by
  have hclean : Join [fs.baseDir, uploadDir, ".."] = Clean fs.baseDir := by
    apply string_eq_of_data
    rw [Join_upload_name_data]
    exact joinChars_dotdot _
  have hlen : (Clean fs.baseDir).data.length < fs.uploadPath.data.length :=
    cleanChars_length_lt fs.baseDir.data
  have hne : Clean fs.baseDir ≠ fs.uploadPath := by
    intro h
    rw [h] at hlen
    exact lt_irrefl _ hlen
  have hpre : ¬ (fs.uploadPath.data ++ [PathSeparator]).isPrefixOf (Clean fs.baseDir).data = true := by
    rw [List.isPrefixOf_iff_prefix]
    intro h
    have := h.length_le
    simp only [List.length_append, List.length_singleton] at this
    omega
  unfold FS.locate
  rw [hclean, if_neg hne, if_neg hpre, if_pos rfl]

theorem sanitizeName_ne_empty (s : String) : sanitizeName s ≠ "" := by
  intro h
  have hd := congrArg String.data h
  rw [sanitizeName_data] at hd
  simp at hd
  exact baseChars_ne_nil _ hd

/-- A sanitized name is `.`, `..` or a real path element. -/
theorem sanitizeName_cases (s : String) :
    sanitizeName s = "." ∨ sanitizeName s = ".." ∨ IsElement (sanitizeName s).data := by
  by_cases h1 : sanitizeName s = "."
  · exact Or.inl h1
  by_cases h2 : sanitizeName s = ".."
  · exact Or.inr (Or.inl h2)
  refine Or.inr (Or.inr ⟨?_, ?_, ?_, fun c hc hsep => not_mem_sanitizeName s (hsep ▸ hc)⟩)
  · intro h
    exact sanitizeName_ne_empty s (string_eq_of_data h)
  · intro h
    exact h1 (string_eq_of_data h)
  · intro h
    exact h2 (string_eq_of_data h)

theorem dropRightWhile_concat_neg (p : Char → Bool) (init : List Char) (c : Char)
    (hc : p c = false) : dropRightWhile p (init ++ [c]) = init ++ [c] := by
  unfold dropRightWhile
  simp [List.dropWhile_cons, hc]

theorem trimSpaceChars_idem (s : List Char) :
    trimSpaceChars (trimSpaceChars s) = trimSpaceChars s := by
  unfold trimSpaceChars
  rcases dropRightWhile_nil_or_last isSpace (s.dropWhile isSpace) with h | ⟨init, c, h, hc⟩
  · rw [h]; rfl
  · rw [h]
    have hsplit := dropRightWhile_append_takeRightWhile isSpace (s.dropWhile isSpace)
    rw [h] at hsplit
    have hhead : (init ++ [c]).dropWhile isSpace = init ++ [c] := by
      rcases dropWhile_nil_or_head isSpace s with h0 | ⟨d, rest, hd, hdc⟩
      · rw [h0] at hsplit
        simp at hsplit
      · rw [hd] at hsplit
        cases init with
        | nil =>
          simp [List.dropWhile_cons, hc]
        | cons a init =>
          simp only [List.cons_append, List.cons.injEq] at hsplit
          rw [hsplit.1]
          simp [List.dropWhile_cons, hdc]
    rw [hhead]
    exact dropRightWhile_concat_neg _ _ _ hc

theorem mem_of_mem_trimSpaceChars (s : List Char) (c : Char) (h : c ∈ trimSpaceChars s) :
    c ∈ s := by
  unfold trimSpaceChars dropRightWhile at h
  rw [List.mem_reverse] at h
  have h2 := (List.dropWhile_sublist _).subset h
  rw [List.mem_reverse] at h2
  exact (List.dropWhile_sublist _).subset h2

theorem baseChars_eq_self (t : List Char) (hne : t ≠ []) (h : ∀ c ∈ t, c ≠ PathSeparator) :
    baseChars t = t := by
  have hsep : ∀ c ∈ t, IsPathSeparator c = false := by
    intro c hc
    simpa [IsPathSeparator] using h c hc
  unfold baseChars
  rw [if_neg hne]
  simp only
  rw [dropRightWhile_eq_self _ _ hsep, takeRightWhile_eq_self _ _ (by
    intro c hc
    simp [hsep c hc]), if_neg hne]

/-- A file name without separator is sanitized to a name that `sanitizeName`
leaves unchanged. -/
theorem sanitizeName_fixed (f : String) (h : PathSeparator ∉ f.data) :
    sanitizeName (sanitizeName f) = sanitizeName f := by
  by_cases ht : trimSpaceChars f.data = []
  · have : sanitizeName f = "." := by
      apply string_eq_of_data
      rw [sanitizeName_data, ht]
      decide
    rw [this]
    decide
  · have hno : ∀ c ∈ trimSpaceChars f.data, c ≠ PathSeparator := by
      intro c hc hsep
      exact h (hsep ▸ mem_of_mem_trimSpaceChars _ _ hc)
    have hdata : (sanitizeName f).data = trimSpaceChars f.data := by
      rw [sanitizeName_data, baseChars_eq_self _ ht hno, map_separator_eq_self _ hno]
    apply string_eq_of_data
    rw [sanitizeName_data, hdata, trimSpaceChars_idem, baseChars_eq_self _ ht hno,
      map_separator_eq_self _ hno]

theorem trim_of_decomp (A M B : List Char) (hA : ∀ c ∈ A, isSpace c = true)
    (hB : ∀ c ∈ B, isSpace c = true)
    (hhead : ∃ c l, M = c :: l ∧ isSpace c = false)
    (hlast : ∃ l c, M = l ++ [c] ∧ isSpace c = false) :
    trimSpaceChars (A ++ M ++ B) = M := by
  obtain ⟨c, l, hM, hc⟩ := hhead
  obtain ⟨l', c', hM', hc'⟩ := hlast
  unfold trimSpaceChars
  have h1 : (A ++ M ++ B).dropWhile isSpace = M ++ B := by
    rw [List.append_assoc, List.dropWhile_append_of_pos hA, hM, List.cons_append,
      List.dropWhile_cons_of_neg (by simp [hc])]
  rw [h1]
  unfold dropRightWhile
  have hB' : ∀ c ∈ B.reverse, isSpace c = true := fun c hc => hB c (List.mem_reverse.mp hc)
  rw [List.reverse_append, List.dropWhile_append_of_pos hB', hM', List.reverse_append,
    List.reverse_singleton, List.singleton_append, List.dropWhile_cons_of_neg (by simp [hc'])]
  simp

theorem base_of_decomp (p y s : List Char) (hy : y ≠ [])
    (hysep : ∀ c ∈ y, c ≠ PathSeparator) (hs : ∀ c ∈ s, c = PathSeparator)
    (hp : p = [] ∨ ∃ l, p = l ++ [PathSeparator]) :
    baseChars (p ++ y ++ s) = y := by
  have hne : p ++ y ++ s ≠ [] := by simp [hy]
  have hs' : ∀ c ∈ s.reverse, IsPathSeparator c = true := by
    intro c hc
    simp [IsPathSeparator, hs c (List.mem_reverse.mp hc)]
  have hy' : ∀ c ∈ y.reverse, (!IsPathSeparator c) = true := by
    intro c hc
    simpa [IsPathSeparator] using hysep c (List.mem_reverse.mp hc)
  obtain ⟨l, c, hyl, hc⟩ : ∃ l c, y.reverse = c :: l ∧ IsPathSeparator c = false := by
    cases hr : y.reverse with
    | nil => exact absurd (by simpa using hr) hy
    | cons c l =>
      refine ⟨l, c, rfl, ?_⟩
      have := hy' c (by rw [hr]; simp)
      simpa using this
  have hstrip : dropRightWhile IsPathSeparator (p ++ y ++ s) = p ++ y := by
    unfold dropRightWhile
    rw [List.reverse_append, List.dropWhile_append_of_pos hs', List.reverse_append, hyl,
      List.cons_append, List.dropWhile_cons_of_neg (by simp [hc]), ← List.cons_append, ← hyl,
      ← List.reverse_append, List.reverse_reverse]
  have hlast : takeRightWhile (fun c => !IsPathSeparator c) (p ++ y) = y := by
    unfold takeRightWhile
    rw [List.reverse_append, List.takeWhile_append_of_pos hy']
    have : p.reverse.takeWhile (fun c => !IsPathSeparator c) = [] := by
      rcases hp with hp | ⟨l, hp⟩
      · simp [hp]
      · simp [hp, IsPathSeparator]
    rw [this, List.append_nil, List.reverse_reverse]
  unfold baseChars
  rw [if_neg hne]
  simp only
  rw [hstrip, hlast, if_neg hy]

theorem trim_decomp (x : List Char) :
    ∃ a b, x = a ++ trimSpaceChars x ++ b ∧ (∀ c ∈ a, isSpace c = true) ∧
      (∀ c ∈ b, isSpace c = true) ∧
      (trimSpaceChars x = [] ∨
        ((∃ c l, trimSpaceChars x = c :: l ∧ isSpace c = false) ∧
         (∃ l c, trimSpaceChars x = l ++ [c] ∧ isSpace c = false))) := by
  refine ⟨x.takeWhile isSpace, takeRightWhile isSpace (x.dropWhile isSpace), ?_, ?_, ?_, ?_⟩
  · unfold trimSpaceChars
    rw [List.append_assoc, dropRightWhile_append_takeRightWhile, List.takeWhile_append_dropWhile]
  · intro c hc
    exact List.mem_takeWhile_imp hc
  · intro c hc
    exact mem_takeRightWhile _ _ _ hc
  · by_cases hnil : trimSpaceChars x = []
    · exact Or.inl hnil
    · right
      have hsplit := dropRightWhile_append_takeRightWhile isSpace (x.dropWhile isSpace)
      constructor
      · rcases dropWhile_nil_or_head isSpace x with h0 | ⟨c, rest, hd, hc⟩
        · unfold trimSpaceChars at hnil
          rw [h0] at hnil
          exact absurd rfl hnil
        · cases ht : trimSpaceChars x with
          | nil => exact absurd ht hnil
          | cons d l =>
            refine ⟨d, l, rfl, ?_⟩
            unfold trimSpaceChars at ht
            rw [ht, hd] at hsplit
            simp only [List.cons_append, List.cons.injEq] at hsplit
            rw [hsplit.1]
            exact hc
      · rcases dropRightWhile_nil_or_last isSpace (x.dropWhile isSpace) with h0 | h1
        · exact absurd h0 hnil
        · exact h1

theorem sanChars_of_trim (x m : List Char) (hx : trimSpaceChars x = m) (hm : m ≠ [])
    (hsep : ∀ c ∈ m, c ≠ PathSeparator) : sanChars x = m := by
  unfold sanChars
  rw [hx, baseChars_eq_self m hm hsep, map_separator_eq_self m hsep]

theorem exists_concat_of_getLast (p : List Char) (c : Char) (h : p.getLast? = some c) :
    ∃ l, p = l ++ [c] := by
  rcases List.eq_nil_or_concat p with h0 | ⟨l, d, hl⟩
  · simp [h0] at h
  · refine ⟨l, ?_⟩
    rw [List.concat_eq_append] at hl
    rw [hl] at h ⊢
    simp at h
    rw [h]

theorem sanChars_sanChars (f : List Char) (ht : trimSpaceChars (baseChars f) ≠ []) :
    sanChars (sanChars f) = sanChars (baseChars f) := by
  have hslash : isSpace PathSeparator = false := by decide
  by_cases hall : ∃ c ∈ f, c ≠ PathSeparator
  swap
  · -- the path is empty or made of separators
    push_neg at hall
    by_cases hf : f = []
    · subst hf; decide
    · have hbase : baseChars f = [PathSeparator] := by
        have hstrip : dropRightWhile IsPathSeparator f = [] := by
          unfold dropRightWhile
          have : f.reverse.dropWhile IsPathSeparator = [] := by
            rw [List.dropWhile_eq_nil_iff]
            intro c hc
            simp [IsPathSeparator, hall c (List.mem_reverse.mp hc)]
          rw [this]; rfl
        unfold baseChars
        rw [if_neg hf]
        simp only
        rw [hstrip]
        rfl
      have htrim : trimSpaceChars f = f := by
        obtain ⟨l, c, hl⟩ : ∃ l c, f = l ++ [c] := by
          rcases List.eq_nil_or_concat f with h0 | ⟨l, c, hl⟩
          · exact absurd h0 hf
          · exact ⟨l, c, by rw [hl, List.concat_eq_append]⟩
        cases hfc : f with
        | nil => exact absurd hfc hf
        | cons d r =>
          have hd : d = PathSeparator := hall d (by rw [hfc]; simp)
          have hc : c = PathSeparator := hall c (by rw [hl]; simp)
          have := trim_of_decomp [] f [] (by simp) (by simp)
            ⟨d, r, hfc, by rw [hd]; exact hslash⟩ ⟨l, c, hl, by rw [hc]; exact hslash⟩
          simpa [hfc] using this
      have h1 : sanChars f = ['_'] := by
        unfold sanChars
        rw [htrim, hbase]
        decide
      rw [h1, hbase]
      decide
  · obtain ⟨pre, suf, hfdec, hesep, hsuf, hpre⟩ := baseChars_split f hall
    obtain ⟨w1, w2, hedec, hw1, hw2, hm⟩ := trim_decomp (baseChars f)
    rcases hm with hm | ⟨hmhead, hmlast⟩
    · exact absurd hm ht
    generalize hmdef : trimSpaceChars (baseChars f) = m at *
    generalize hedef : baseChars f = e at *
    have hw1sep : ∀ c ∈ w1, c ≠ PathSeparator := fun c hc =>
      hesep c (by rw [hedec]; simp [hc])
    have hw2sep : ∀ c ∈ w2, c ≠ PathSeparator := fun c hc =>
      hesep c (by rw [hedec]; simp [hc])
    have hmsep : ∀ c ∈ m, c ≠ PathSeparator := fun c hc =>
      hesep c (by rw [hedec]; simp [hc])
    -- the left context
    obtain ⟨A, P, a, hL, hA, hP, ha⟩ : ∃ A P a, pre ++ w1 = A ++ P ++ a ∧
        (∀ c ∈ A, isSpace c = true) ∧
        ((P = [] ∧ a = []) ∨
          ((∃ c l, P = c :: l ∧ isSpace c = false) ∧ (∃ l, P = l ++ [PathSeparator]))) ∧
        (a = [] ∨ a = w1) := by
      rcases hpre with hpre | hpre
      · exact ⟨w1, [], [], by simp [hpre], hw1, Or.inl ⟨rfl, rfl⟩, Or.inl rfl⟩
      · obtain ⟨l, hl⟩ := exists_concat_of_getLast pre _ hpre
        refine ⟨pre.takeWhile isSpace, pre.dropWhile isSpace, w1, ?_, ?_, Or.inr ⟨?_, ?_⟩,
          Or.inr rfl⟩
        · rw [List.takeWhile_append_dropWhile]
        · intro c hc
          exact List.mem_takeWhile_imp hc
        · rcases dropWhile_nil_or_head isSpace pre with h0 | ⟨c, rest, hd, hc⟩
          · rw [List.dropWhile_eq_nil_iff] at h0
            have := h0 PathSeparator (by rw [hl]; simp)
            rw [hslash] at this
            exact absurd this (by simp)
          · exact ⟨c, rest, hd, hc⟩
        · rcases dropWhile_nil_or_head isSpace pre with h0 | ⟨c, rest, hd, hc⟩
          · rw [List.dropWhile_eq_nil_iff] at h0
            have := h0 PathSeparator (by rw [hl]; simp)
            rw [hslash] at this
            exact absurd this (by simp)
          · obtain ⟨t, ht2⟩ := List.dropWhile_suffix (l := pre) isSpace
            apply exists_concat_of_getLast
            have hne : pre.dropWhile isSpace ≠ [] := by rw [hd]; simp
            rw [← List.getLast?_append_of_ne_nil t hne, ht2]
            exact hpre
    -- the right context
    obtain ⟨b, s, B, hR, hB, hs, hb, hb2⟩ : ∃ b s B, w2 ++ suf = b ++ s ++ B ∧
        (∀ c ∈ B, isSpace c = true) ∧ (∀ c ∈ s, c = PathSeparator) ∧
        ((s = [] ∧ b = []) ∨ ∃ l, s = l ++ [PathSeparator]) ∧ (b = [] ∨ b = w2) := by
      by_cases hsuf0 : suf = []
      · exact ⟨[], [], w2, by simp [hsuf0], hw2, by simp, Or.inl ⟨rfl, rfl⟩, Or.inl rfl⟩
      · refine ⟨w2, suf, [], by simp, by simp, hsuf, Or.inr ?_, Or.inr rfl⟩
        rcases List.eq_nil_or_concat suf with h0 | ⟨l, c, hl⟩
        · exact absurd h0 hsuf0
        · refine ⟨l, ?_⟩
          rw [List.concat_eq_append] at hl
          rw [hl, hsuf c (by rw [hl]; simp)]
    have hasp : ∀ c ∈ a, isSpace c = true := by
      rcases ha with ha | ha <;> rw [ha]
      · simp
      · exact hw1
    have hbsp : ∀ c ∈ b, isSpace c = true := by
      rcases hb2 with hb2 | hb2 <;> rw [hb2]
      · simp
      · exact hw2
    have hasep : ∀ c ∈ a, c ≠ PathSeparator := by
      rcases ha with ha | ha <;> rw [ha]
      · simp
      · exact hw1sep
    have hbsep : ∀ c ∈ b, c ≠ PathSeparator := by
      rcases hb2 with hb2 | hb2 <;> rw [hb2]
      · simp
      · exact hw2sep
    obtain ⟨c0, l0, hm0, hc0⟩ := hmhead
    obtain ⟨l1, c1, hm1, hc1⟩ := hmlast
    have hmne : m ≠ [] := by rw [hm0]; simp
    -- the trimmed path
    have hfM : f = A ++ (P ++ (a ++ m ++ b) ++ s) ++ B := by
      calc f = (pre ++ w1) ++ m ++ (w2 ++ suf) := by
            rw [hfdec, hedec]; simp [List.append_assoc]
        _ = A ++ (P ++ (a ++ m ++ b) ++ s) ++ B := by
            rw [hL, hR]; simp [List.append_assoc]
    have htrimf : trimSpaceChars f = P ++ (a ++ m ++ b) ++ s := by
      conv_lhs => rw [hfM]
      apply trim_of_decomp _ _ _ hA hB
      · rcases hP with ⟨hP0, ha0⟩ | ⟨⟨c, l, hPc, hc⟩, -⟩
        · exact ⟨c0, l0 ++ b ++ s, by simp [hP0, ha0, hm0], hc0⟩
        · exact ⟨c, l ++ (a ++ m ++ b) ++ s, by simp [hPc], hc⟩
      · rcases hb with ⟨hs0, hb0⟩ | ⟨l, hl⟩
        · exact ⟨P ++ a ++ l1, c1, by simp [hs0, hb0, hm1], hc1⟩
        · exact ⟨P ++ (a ++ m ++ b) ++ l, PathSeparator, by simp [hl], hslash⟩
    have hy : a ++ m ++ b ≠ [] := by simp [hmne]
    have hysep : ∀ c ∈ a ++ m ++ b, c ≠ PathSeparator := by
      intro c hc
      simp only [List.mem_append] at hc
      rcases hc with (hc | hc) | hc
      · exact hasep c hc
      · exact hmsep c hc
      · exact hbsep c hc
    have hbasef : baseChars (trimSpaceChars f) = a ++ m ++ b := by
      rw [htrimf]
      apply base_of_decomp _ _ _ hy hysep hs
      rcases hP with ⟨hP0, -⟩ | ⟨-, hPl⟩
      · exact Or.inl hP0
      · exact Or.inr hPl
    have hsf : sanChars f = a ++ m ++ b := by
      unfold sanChars
      rw [hbasef, map_separator_eq_self _ hysep]
    have htrimy : trimSpaceChars (a ++ m ++ b) = m :=
      trim_of_decomp a m b hasp hbsp ⟨c0, l0, hm0, hc0⟩ ⟨l1, c1, hm1, hc1⟩
    rw [hsf, sanChars_of_trim _ m htrimy hmne hmsep, sanChars_of_trim _ m hmdef hmne hmsep]

/-- The sanitized form of the client's file name is sanitized once more to the
name under which the upload of that file name is stored. -/
theorem sanitizeName_sanitizeName (f : String)
    (h : sanitizeName (Base f) ≠ ".") :
    sanitizeName (sanitizeName f) = sanitizeName (Base f) := by
  have hdata : ∀ s : String, (sanitizeName s).data = sanChars s.data := sanitizeName_data
  have ht : trimSpaceChars (baseChars f.data) ≠ [] := by
    intro h0
    apply h
    apply string_eq_of_data
    rw [hdata]
    show sanChars (baseChars f.data) = _
    unfold sanChars
    rw [h0]
    decide
  apply string_eq_of_data
  rw [hdata, hdata, hdata]
  exact sanChars_sanChars f.data ht

/-! ## Lemmas on the storage model -/

theorem lookupKey_setKey_same {α β : Type} [DecidableEq α] (k : α) (v : β)
    (es : List (α × β)) : lookupKey k (setKey k v es) = some v := by
  induction es with
  | nil => simp [setKey, lookupKey]
  | cons e es ih =>
    obtain ⟨k', w⟩ := e
    by_cases h : k' = k
    · simp [setKey, lookupKey, h]
    · simp [setKey, lookupKey, h, ih]

theorem lookupKey_setKey_other {α β : Type} [DecidableEq α] (m k : α) (v : β)
    (es : List (α × β)) (h : m ≠ k) : lookupKey m (setKey k v es) = lookupKey m es := by
  induction es with
  | nil => simp [setKey, lookupKey, Ne.symm h]
  | cons e es ih =>
    obtain ⟨k', w⟩ := e
    by_cases hk : k' = k
    · subst hk
      simp [setKey, lookupKey, Ne.symm h]
    · by_cases hm : k' = m
      · subst hm
        simp [setKey, lookupKey, hk]
      · simp [setKey, lookupKey, hk, hm, ih]

theorem setKey_setKey {α β : Type} [DecidableEq α] (k : α) (v w : β) (es : List (α × β)) :
    setKey k v (setKey k w es) = setKey k v es := by
  induction es with
  | nil => simp [setKey]
  | cons e es ih =>
    obtain ⟨k', u⟩ := e
    by_cases h : k' = k
    · simp [setKey, h]
    · simp [setKey, h, ih]

theorem mem_of_lookupKey {α β : Type} [DecidableEq α] (k : α) (v : β) (es : List (α × β))
    (h : lookupKey k es = some v) : (k, v) ∈ es := by
  induction es with
  | nil => simp [lookupKey] at h
  | cons e es ih =>
    obtain ⟨k', w⟩ := e
    by_cases hk : k' = k
    · simp [lookupKey, hk] at h
      simp [hk, h]
    · simp [lookupKey, hk] at h
      exact List.mem_cons_of_mem _ (ih h)

theorem content_setContent_same (fs : FS) (i : Nat) (c : Bytes) :
    (fs.setContent i c).content i = c := by
  simp [FS.content, FS.setContent, lookupKey_setKey_same]

theorem content_setContent_other (fs : FS) (i k : Nat) (c : Bytes) (h : k ≠ i) :
    (fs.setContent i c).content k = fs.content k := by
  simp [FS.content, FS.setContent, lookupKey_setKey_other _ _ _ _ h]

theorem setContent_setContent (fs : FS) (i : Nat) (c d : Bytes) :
    (fs.setContent i d).setContent i c = fs.setContent i c := by
  simp [FS.setContent, setKey_setKey]

theorem content_addFile_same (fs : FS) (t : String) (j : Nat) :
    (fs.addFile t j).content j = [] := by
  simp [FS.content, FS.addFile, lookupKey_setKey_same]

theorem content_addFile_other (fs : FS) (t : String) (j k : Nat) (h : k ≠ j) :
    (fs.addFile t j).content k = fs.content k := by
  simp [FS.content, FS.addFile, lookupKey_setKey_other _ _ _ _ h]

theorem writeAt_of_empty (fs : FS) (i : Nat) (c : Bytes) (h : fs.content i = []) :
    fs.writeAt i c = fs.setContent i c := by
  unfold FS.writeAt
  rw [h]
  simp

theorem resolve_setContent (fs : FS) (i : Nat) (c : Bytes) (m : String) :
    (fs.setContent i c).resolve m = fs.resolve m := rfl

/-- A name that leads to a missing name: nothing is bound to that name. -/
theorem followLinks_missing (entries : List (String × Node)) (fuel : Nat) (m t : String)
    (h : followLinks entries fuel m = .missing t) : lookupKey t entries = none := by
  induction fuel generalizing m with
  | zero => simp [followLinks] at h
  | succ fuel ih =>
    unfold followLinks at h
    split at h
    · next hl =>
      cases h
      exact hl
    · cases h
    · cases h
    · cases h
    · cases h
    · split at h
      · exact ih _ h
      · cases h

/-- The inode a name leads to is in use. -/
theorem followLinks_file_used (fs : FS) (fuel : Nat) (m : String) (k : Nat)
    (h : followLinks fs.entries fuel m = .file k) : k ∈ fs.usedInos := by
  induction fuel generalizing m with
  | zero => simp [followLinks] at h
  | succ fuel ih =>
    unfold followLinks at h
    split at h
    · cases h
    · next ino hl =>
      cases h
      have := mem_of_lookupKey _ _ _ hl
      unfold FS.usedInos
      rw [List.mem_append, List.mem_flatMap]
      exact Or.inr ⟨_, this, by simp [Node.inos]⟩
    · cases h
    · next ino hl =>
      cases h
      have := mem_of_lookupKey _ _ _ hl
      unfold FS.usedInos
      rw [List.mem_append, List.mem_flatMap]
      exact Or.inr ⟨_, this, by simp [Node.inos]⟩
    · cases h
    · split at h
      · exact ih _ h
      · cases h

theorem le_foldr_max (l : List Nat) (k : Nat) (h : k ∈ l) : k ≤ l.foldr max 0 := by
  induction l with
  | nil => simp at h
  | cons a l ih =>
    rw [List.foldr_cons]
    rcases List.mem_cons.mp h with h | h
    · rw [h]; exact le_max_left _ _
    · exact le_trans (ih h) (le_max_right _ _)

theorem lt_freshIno (fs : FS) (k : Nat) (h : k ∈ fs.usedInos) : k < fs.freshIno := by
  unfold FS.freshIno
  exact Nat.lt_succ_of_le (le_foldr_max _ _ h)

/-- What binding a missing name to a new file changes: the names that led to
the missing name lead to the new file, the others lead where they did. -/
theorem followLinks_setKey (entries : List (String × Node)) (fuel : Nat) (m t : String)
    (j : Nat) (ht : lookupKey t entries = none) :
    followLinks (setKey t (.regular j) entries) fuel m =
      match followLinks entries fuel m with
      | .missing t' => if t' = t then .file j else .missing t'
      | r => r := by
  induction fuel generalizing m with
  | zero => simp [followLinks]
  | succ fuel ih =>
    by_cases hm : m = t
    · subst hm
      simp [followLinks, lookupKey_setKey_same, ht]
    · unfold followLinks
      rw [lookupKey_setKey_other _ _ _ _ hm]
      cases hl : lookupKey m entries with
      | none => simp [hm]
      | some node =>
        cases node with
        | regular ino => simp
        | directory => simp
        | symlink target =>
          cases target with
          | file ino => simp
          | directory => simp
          | sibling s =>
            simp only
            split
            · exact ih s
            · simp

theorem openEntry_setContent (fs : FS) (i : Nat) (c : Bytes) (m : String)
    (h : fs.resolve m ≠ .file i) : (fs.setContent i c).openEntry m = fs.openEntry m := by
  unfold FS.openEntry
  rw [resolve_setContent]
  cases hr : fs.resolve m with
  | file k =>
    have hk : k ≠ i := by
      intro hki
      rw [hr, hki] at h
      exact h rfl
    simp [content_setContent_other _ _ _ _ hk]
  | directory => rfl
  | missing t => rfl
  | error e => rfl

theorem resolve_addFile (fs : FS) (t m : String) (j : Nat)
    (ht : lookupKey t fs.entries = none) (hm : fs.resolve m ≠ .missing t) :
    (fs.addFile t j).resolve m = fs.resolve m := by
  unfold FS.resolve at hm ⊢
  show followLinks (setKey t (.regular j) fs.entries) (maxLinks + 1) m = _
  rw [followLinks_setKey _ _ _ _ _ ht]
  cases hr : followLinks fs.entries (maxLinks + 1) m with
  | missing t' =>
    have : t' ≠ t := by
      intro h
      rw [hr, h] at hm
      exact hm rfl
    simp [this]
  | file k => rfl
  | directory => rfl
  | error e => rfl

theorem openEntry_addFile (fs : FS) (t m : String)
    (ht : lookupKey t fs.entries = none) (hm : fs.resolve m ≠ .missing t) :
    (fs.addFile t fs.freshIno).openEntry m = fs.openEntry m := by
  unfold FS.openEntry
  rw [resolve_addFile fs t m _ ht hm]
  cases hr : fs.resolve m with
  | file k =>
    have hk : k ≠ fs.freshIno := Nat.ne_of_lt (lt_freshIno fs k (followLinks_file_used fs _ m k hr))
    simp [content_addFile_other _ _ _ _ hk]
  | directory => rfl
  | missing t' => rfl
  | error e => rfl

/-- After an upload the name leads to a regular file with the uploaded
content. -/
theorem stored_post (fs fs' : FS) (n : String) (content : Bytes)
    (h : Stored fs fs' n content) :
    ∃ i, fs'.resolve n = .file i ∧ fs'.content i = content := by
  rcases h with ⟨i, hr, hfs⟩ | ⟨t, hr, hfs⟩
  · refine ⟨i, ?_, ?_⟩
    · rw [hfs, resolve_setContent, hr]
    · rw [hfs, content_setContent_same]
  · refine ⟨fs.freshIno, ?_, ?_⟩
    · rw [hfs, resolve_setContent]
      have ht := followLinks_missing _ _ _ _ hr
      unfold FS.resolve at hr ⊢
      show followLinks (setKey t (.regular fs.freshIno) fs.entries) (maxLinks + 1) n = _
      rw [followLinks_setKey _ _ _ _ _ ht, hr]
      simp
    · rw [hfs, content_setContent_same]

/-- An upload leaves every name that led elsewhere than the uploaded name as it
was. -/
theorem stored_others (fs fs' : FS) (n m : String) (content : Bytes)
    (h : Stored fs fs' n content) (hm : fs.resolve m ≠ fs.resolve n) :
    fs'.openEntry m = fs.openEntry m ∧ fs'.resolve m = fs.resolve m := by
  rcases h with ⟨i, hr, hfs⟩ | ⟨t, hr, hfs⟩
  · rw [hr] at hm
    rw [hfs]
    exact ⟨openEntry_setContent fs i content m hm, rfl⟩
  · rw [hr] at hm
    have ht := followLinks_missing _ _ _ _ hr
    have hres := resolve_addFile fs t m fs.freshIno ht hm
    rw [hfs]
    refine ⟨?_, ?_⟩
    · rw [openEntry_setContent _ _ _ _ ?_, openEntry_addFile fs t m ht hm]
      rw [hres]
      intro hfile
      exact Nat.lt_irrefl _ (lt_freshIno fs _ (followLinks_file_used fs _ m _ hfile))
    · rw [resolve_setContent, hres]

theorem osOpen_element (fs : FS) (n : String) (hn : IsElement n.data) :
    osOpen fs (Join [fs.baseDir, uploadDir, n]) = fs.openEntry n := by
  unfold osOpen
  rw [locate_element fs n hn]

theorem osCreate_element (fs : FS) (n : String) (fault : Fault) (hn : IsElement n.data) :
    osCreate fs (Join [fs.baseDir, uploadDir, n]) fault =
      if fault = .create then .error .EACCES else fs.createEntry n := by
  unfold osCreate
  rw [locate_element fs n hn]

theorem osCreate_dot (fs : FS) (fault : Fault) :
    ∃ e, osCreate fs (Join [fs.baseDir, uploadDir, "."]) fault = .error e := by
  unfold osCreate
  rw [locate_dot]
  split
  · exact ⟨_, rfl⟩
  · exact ⟨_, rfl⟩

theorem osCreate_dotdot (fs : FS) (fault : Fault) :
    ∃ e, osCreate fs (Join [fs.baseDir, uploadDir, ".."]) fault = .error e := by
  unfold osCreate
  rw [locate_dotdot]
  split
  · exact ⟨_, rfl⟩
  · exact ⟨_, rfl⟩

theorem FormFile_of_filePart (form : List Part) (part : Part)
    (h : filePart form "file" = some part) :
    FormFile form "file" = some ⟨Base part.filename, part.content⟩ := by
  simp [FormFile, h]

theorem handleUpload_create_error (fs : FS) (r : Request) (fault : Fault) (form : List Part)
    (header : FileHeader) (e : Errno) (hm : r.method = "POST") (hform : r.form = some form)
    (hfile : FormFile form "file" = some header)
    (hc : osCreate fs (Join [fs.baseDir, uploadDir, sanitizeName header.filename]) fault =
      .error e) :
    handleUpload fs r fault = (.error "保存文件失败" 500, fs) := by
  have hne : sanitizeName header.filename ≠ "" := sanitizeName_ne_empty _
  unfold handleUpload
  simp only [hm, hform, hfile, ne_eq, not_true_eq_false, if_false, hne, hc]

/-- What `handleUpload` does with a request that carries a file whose stored
name is a real path element and with no fault of the environment. -/
theorem handleUpload_element (fs : FS) (r : Request) (form : List Part)
    (header : FileHeader) (hm : r.method = "POST") (hform : r.form = some form)
    (hfile : FormFile form "file" = some header)
    (hn : IsElement (sanitizeName header.filename).data) :
    handleUpload fs r .none =
      match fs.resolve (sanitizeName header.filename) with
      | .file i => (.redirect "/" 303, fs.setContent i header.content)
      | .missing t =>
        (.redirect "/" 303, (fs.addFile t fs.freshIno).setContent fs.freshIno header.content)
      | _ => (.error "保存文件失败" 500, fs) := by
  have hne : sanitizeName header.filename ≠ "" := sanitizeName_ne_empty _
  unfold handleUpload
  simp only [hm, hform, hfile, ne_eq, not_true_eq_false, if_false, hne]
  rw [osCreate_element fs _ _ hn]
  simp only [reduceCtorEq, if_false, FS.createEntry]
  cases hr : fs.resolve (sanitizeName header.filename) with
  | file i =>
    simp only [ioCopy]
    rw [writeAt_of_empty _ _ _ (content_setContent_same _ _ _), setContent_setContent]
  | missing t =>
    simp only [ioCopy]
    rw [writeAt_of_empty _ _ _ (content_addFile_same _ _ _)]
  | directory => rfl
  | error e => rfl

/-- A successful upload carried a file part whose stored name, the sanitized
base name of the client's file name, is a real path element, and stored the
content under that name. -/
theorem handleUpload_redirect (fs fs' : FS) (r : Request) (fault : Fault)
    (h : handleUpload fs r fault = (.redirect "/" 303, fs')) :
    ∃ form part, r.method = "POST" ∧ r.form = some form ∧
      filePart form "file" = some part ∧
      IsElement (sanitizeName (Base part.filename)).data ∧
      Stored fs fs' (sanitizeName (Base part.filename)) part.content := by
  by_cases hm : r.method = "POST"
  swap
  · simp [handleUpload, hm] at h
  cases hform : r.form with
  | none => simp [handleUpload, hm, hform] at h
  | some form =>
    cases hpart : filePart form "file" with
    | none => simp [handleUpload, hm, hform, FormFile, hpart] at h
    | some part =>
      have hfile := FormFile_of_filePart form part hpart
      refine ⟨form, part, hm, rfl, hpart, ?_⟩
      rcases sanitizeName_cases (Base part.filename) with hd | hd | hd
      · obtain ⟨e, he⟩ := osCreate_dot fs fault
        rw [← hd] at he
        rw [handleUpload_create_error fs r fault form _ e hm hform hfile he] at h
        simp at h
      · obtain ⟨e, he⟩ := osCreate_dotdot fs fault
        rw [← hd] at he
        rw [handleUpload_create_error fs r fault form _ e hm hform hfile he] at h
        simp at h
      · refine ⟨hd, ?_⟩
        cases fault with
        | create =>
          have he : osCreate fs (Join [fs.baseDir, uploadDir,
              sanitizeName (Base part.filename)]) .create = .error .EACCES := by
            rw [osCreate_element fs _ _ hd]; rfl
          rw [handleUpload_create_error fs r .create form _ _ hm hform hfile he] at h
          simp at h
        | copy w =>
          exfalso
          have hne : sanitizeName (Base part.filename) ≠ "" := sanitizeName_ne_empty _
          unfold handleUpload at h
          simp only [hm, hform, hfile, ne_eq, not_true_eq_false, if_false, hne] at h
          rw [osCreate_element fs _ _ hd] at h
          simp only [reduceCtorEq, if_false, FS.createEntry, ioCopy] at h
          cases hr : fs.resolve (sanitizeName (Base part.filename)) <;> simp [hr] at h
        | none =>
          rw [handleUpload_element fs r form _ hm hform hfile hd] at h
          cases hr : fs.resolve (sanitizeName (Base part.filename)) with
          | file i =>
            simp only [hr, Prod.mk.injEq, true_and] at h
            exact Or.inl ⟨i, hr, h.symm⟩
          | missing t =>
            simp only [hr, Prod.mk.injEq, true_and] at h
            exact Or.inr ⟨t, hr, h.symm⟩
          | directory => simp [hr] at h
          | error e => simp [hr] at h

theorem TrimPrefix_files (n : String) : TrimPrefix ("/files/" ++ n) "/files/" = n := by
  unfold TrimPrefix
  have hpre : ("/files/" : String).data.isPrefixOf ("/files/" ++ n).data = true := by
    rw [List.isPrefixOf_iff_prefix, String.data_append]
    exact List.prefix_append _ _
  rw [if_pos hpre]
  apply string_eq_of_data
  simp [String.data_append]

/-- What `handleDownload` does when the sanitized name is a real path
element. -/
theorem handleDownload_element (fs : FS) (q : Request) (hm : q.method = "GET")
    (hn : IsElement (sanitizeName (TrimPrefix q.path "/files/")).data) :
    handleDownload fs q =
      match fs.openEntry (sanitizeName (TrimPrefix q.path "/files/")) with
      | .ok f =>
        .serveContent
          ("attachment; filename=\"" ++ sanitizeName (TrimPrefix q.path "/files/") ++ "\"")
          (sanitizeName (TrimPrefix q.path "/files/")) f
      | .error _ => .notFound := by
  have hne : sanitizeName (TrimPrefix q.path "/files/") ≠ "" := sanitizeName_ne_empty _
  unfold handleDownload
  simp only [hm, ne_eq, not_true_eq_false, if_false, hne]
  rw [osOpen_element fs _ hn]
  cases fs.openEntry (sanitizeName (TrimPrefix q.path "/files/")) <;> rfl

/-- The result of `filepath.Base` is a single separator or has none. -/
theorem baseChars_sep (x : List Char) :
    baseChars x = [PathSeparator] ∨ ∀ c ∈ baseChars x, c ≠ PathSeparator := by
  unfold baseChars
  split
  · right
    intro c hc
    simp at hc
    rw [hc]
    decide
  · simp only
    split
    · exact Or.inl rfl
    · right
      intro c hc
      have := mem_takeRightWhile _ _ _ hc
      simpa [IsPathSeparator] using this

/-- The name under which an upload is stored is left unchanged by
`sanitizeName`. -/
theorem sanitizeName_stored_fixed (f : String) :
    sanitizeName (sanitizeName (Base f)) = sanitizeName (Base f) := by
  rcases baseChars_sep f.data with h | h
  · have : Base f = "/" := string_eq_of_data h
    rw [this]
    decide
  · exact sanitizeName_fixed (Base f) (fun hmem => h _ hmem rfl)

/-! ## Lemmas on the order of strings and on `listFiles` -/

theorem lexLE_total (a b : List Nat) : lexLE a b = true ∨ lexLE b a = true := by
  induction a generalizing b with
  | nil => simp [lexLE]
  | cons x xs ih =>
    cases b with
    | nil => simp [lexLE]
    | cons y ys =>
      simp only [lexLE, Bool.or_eq_true, Bool.and_eq_true, decide_eq_true_eq, beq_iff_eq]
      rcases Nat.lt_trichotomy x y with h | h | h
      · exact Or.inl (Or.inl h)
      · rcases ih ys with h2 | h2
        · exact Or.inl (Or.inr ⟨h, h2⟩)
        · exact Or.inr (Or.inr ⟨h.symm, h2⟩)
      · exact Or.inr (Or.inl h)

theorem lexLE_trans (a b c : List Nat) (hab : lexLE a b = true) (hbc : lexLE b c = true) :
    lexLE a c = true := by
  induction a generalizing b c with
  | nil => simp [lexLE]
  | cons x xs ih =>
    cases b with
    | nil => simp [lexLE] at hab
    | cons y ys =>
      cases c with
      | nil => simp [lexLE] at hbc
      | cons z zs =>
        simp only [lexLE, Bool.or_eq_true, Bool.and_eq_true, decide_eq_true_eq,
          beq_iff_eq] at hab hbc ⊢
        rcases hab with h1 | ⟨h1, h2⟩
        · rcases hbc with h3 | ⟨h3, -⟩
          · exact Or.inl (lt_trans h1 h3)
          · exact Or.inl (h3 ▸ h1)
        · rcases hbc with h3 | ⟨h3, h4⟩
          · exact Or.inl (h1 ▸ h3)
          · exact Or.inr ⟨h1.trans h3, ih ys zs h2 h4⟩

theorem foldl_regular (entries : List DirEntry) (acc : List String) :
    entries.foldl (fun files entry => if IsRegular entry.type then files ++ [entry.name]
      else files) acc =
      acc ++ (entries.filter fun e => IsRegular e.type).map DirEntry.name := by
  induction entries generalizing acc with
  | nil => simp
  | cons e es ih =>
    by_cases h : IsRegular e.type = true
    · simp [List.foldl_cons, ih, h]
    · simp [List.foldl_cons, ih, h]

/-- C8. For every readable upload directory, `listFiles` returns exactly the
names of the entries that are regular files, in ascending byte-wise
lexicographic order. -/
theorem listFiles_regular_sorted (entries : List DirEntry) :
    ∃ files, listFiles (.ok entries) = .ok files ∧
      files.Perm ((entries.filter fun e => IsRegular e.type).map DirEntry.name) ∧
      files.Sorted StringLE := by
  refine ⟨_, rfl, ?_, ?_⟩
  · rw [foldl_regular, List.nil_append]
    exact List.perm_insertionSort _ _
  · haveI : IsTotal String StringLE := ⟨fun _ _ => lexLE_total _ _⟩
    haveI : IsTrans String StringLE := ⟨fun _ _ _ hab hbc => lexLE_trans _ _ _ hab hbc⟩
    exact List.sorted_insertionSort _ _

/-! ## The handlers -/

/-- C4. Round trip: when the upload of the client's file name `f` with content
`C` succeeds, a following `GET /files/<n>` with `n = sanitizeName f` (and also
with `n` the name the file is stored under, the sanitized form of the
`Filename` that `FormFile` returns) hands `http.ServeContent` the regular file
whose bytes are exactly `C`. -/
theorem upload_download_roundtrip (fs fs' : FS) (r q : Request) (fault : Fault)
    (form : List Part) (part : Part)
    (hform : r.form = some form) (hpart : filePart form "file" = some part)
    (hup : handleUpload fs r fault = (.redirect "/" 303, fs'))
    (hq : q.method = "GET")
    (hpath : q.path = "/files/" ++ sanitizeName part.filename ∨
      q.path = "/files/" ++ sanitizeName (Base part.filename)) :
    handleDownload fs' q =
      .serveContent ("attachment; filename=\"" ++ sanitizeName (Base part.filename) ++ "\"")
        (sanitizeName (Base part.filename)) (.regular part.content) ∧
    (handleDownload fs' q).entity = some part.content := by
  obtain ⟨form', part', -, hform', hpart', hel, hst⟩ := handleUpload_redirect fs fs' r fault hup
  rw [hform] at hform'
  cases hform'
  rw [hpart] at hpart'
  cases hpart'
  have hdot : sanitizeName (Base part.filename) ≠ "." := by
    intro h
    rw [h] at hel
    exact hel.2.1 rfl
  have hname : sanitizeName (TrimPrefix q.path "/files/") = sanitizeName (Base part.filename) := by
    rcases hpath with hpath | hpath
    · rw [hpath, TrimPrefix_files, sanitizeName_sanitizeName _ hdot]
    · rw [hpath, TrimPrefix_files, sanitizeName_stored_fixed]
  obtain ⟨i, hres, hcontent⟩ := stored_post fs fs' _ _ hst
  have hopen : fs'.openEntry (sanitizeName (Base part.filename)) = .ok (.regular part.content) := by
    unfold FS.openEntry
    rw [hres]
    simp only [hcontent]
  have hresp : handleDownload fs' q =
      .serveContent ("attachment; filename=\"" ++ sanitizeName (Base part.filename) ++ "\"")
        (sanitizeName (Base part.filename)) (.regular part.content) := by
    rw [handleDownload_element fs' q hq (by rw [hname]; exact hel), hname, hopen]
  exact ⟨hresp, by rw [hresp]; rfl⟩

/-- The round trip on the upload of `docs/ notes.txt` over an existing, longer
`notes.txt`, read back under the name ` notes.txt`. -/
theorem upload_download_roundtrip_witness :
    handleDownload ⟨"/srv/app", [("notes.txt", .regular 1)], [(1, [1, 2, 3])]⟩
        (downloadRequest " notes.txt") =
      .serveContent "attachment; filename=\"notes.txt\"" "notes.txt" (.regular [1, 2, 3]) ∧
    (handleDownload ⟨"/srv/app", [("notes.txt", .regular 1)], [(1, [1, 2, 3])]⟩
      (downloadRequest " notes.txt")).entity = some [1, 2, 3] :=
  upload_download_roundtrip ⟨"/srv/app", [("notes.txt", .regular 1)], [(1, [9, 9, 9, 9, 9])]⟩
    ⟨"/srv/app", [("notes.txt", .regular 1)], [(1, [1, 2, 3])]⟩
    (uploadRequest "docs/ notes.txt" [1, 2, 3]) (downloadRequest " notes.txt") .none
    [⟨"file", "docs/ notes.txt", [1, 2, 3]⟩] ⟨"file", "docs/ notes.txt", [1, 2, 3]⟩
    (by decide) (by decide) (by decide) (by decide) (by decide)

/-- C6. A `POST /upload` whose form cannot be parsed or has no file in the field
`file` is answered with status 400, and the storage state, hence the result of
`listFiles`, is unchanged. -/
theorem upload_without_file (fs : FS) (r : Request) (fault : Fault)
    (hm : r.method = "POST")
    (hno : ∀ form, r.form = some form → ∀ p ∈ form, p.field ≠ "file") :
    (∃ msg, (handleUpload fs r fault).1 = .error msg 400) ∧
    (handleUpload fs r fault).2 = fs ∧
    listFiles (osReadDir (handleUpload fs r fault).2) = listFiles (osReadDir fs) := by
  have key : (∃ msg, (handleUpload fs r fault).1 = .error msg 400) ∧
      (handleUpload fs r fault).2 = fs := by
    cases hform : r.form with
    | none => simp [handleUpload, hm, hform]
    | some form =>
      have hnone : FormFile form "file" = none := by
        have : filePart form "file" = none := by
          unfold filePart
          rw [List.find?_eq_none]
          intro p hp
          have := hno form hform p hp
          simp [this]
        simp [FormFile, this]
      simp [handleUpload, hm, hform, hnone]
  exact ⟨key.1, key.2, by rw [key.2]⟩

/-- A form whose only file is in the field `attachment`. -/
theorem upload_without_file_witness :
    (∃ msg, (handleUpload ⟨"/srv/app", [("a.txt", .regular 1)], [(1, [7])]⟩
      ⟨"POST", "/upload", some [⟨"attachment", "b.txt", [1]⟩]⟩ .none).1 = .error msg 400) ∧
    (handleUpload ⟨"/srv/app", [("a.txt", .regular 1)], [(1, [7])]⟩
      ⟨"POST", "/upload", some [⟨"attachment", "b.txt", [1]⟩]⟩ .none).2 =
        ⟨"/srv/app", [("a.txt", .regular 1)], [(1, [7])]⟩ ∧
    listFiles (osReadDir (handleUpload ⟨"/srv/app", [("a.txt", .regular 1)], [(1, [7])]⟩
      ⟨"POST", "/upload", some [⟨"attachment", "b.txt", [1]⟩]⟩ .none).2) =
        listFiles (osReadDir ⟨"/srv/app", [("a.txt", .regular 1)], [(1, [7])]⟩) :=
  upload_without_file ⟨"/srv/app", [("a.txt", .regular 1)], [(1, [7])]⟩
    ⟨"POST", "/upload", some [⟨"attachment", "b.txt", [1]⟩]⟩ .none (by decide) (by decide)

/-- C7 as stated fails: with a symbolic link `link` to `b.txt` in the upload
directory, two uploads under the name `link` succeed, and `b.txt`, another
stored file, which held `[9]`, holds the content of the second upload
afterwards. -/
theorem second_upload_changes_linked_file :
    handleUpload
        ⟨"/srv/app", [("b.txt", .regular 1), ("link", .symlink (.sibling "b.txt"))], [(1, [9])]⟩
        (uploadRequest "link" [1, 2, 3, 4]) .none =
      (.redirect "/" 303,
        ⟨"/srv/app", [("b.txt", .regular 1), ("link", .symlink (.sibling "b.txt"))],
          [(1, [1, 2, 3, 4])]⟩) ∧
    handleUpload
        ⟨"/srv/app", [("b.txt", .regular 1), ("link", .symlink (.sibling "b.txt"))],
          [(1, [1, 2, 3, 4])]⟩
        (uploadRequest "link" [7]) .none =
      (.redirect "/" 303,
        ⟨"/srv/app", [("b.txt", .regular 1), ("link", .symlink (.sibling "b.txt"))],
          [(1, [7])]⟩) ∧
    sanitizeName "link" = "link" ∧ "b.txt" ≠ sanitizeName "link" ∧
    handleDownload
        ⟨"/srv/app", [("b.txt", .regular 1), ("link", .symlink (.sibling "b.txt"))], [(1, [9])]⟩
        (downloadRequest "b.txt") =
      .serveContent "attachment; filename=\"b.txt\"" "b.txt" (.regular [9]) ∧
    handleDownload
        ⟨"/srv/app", [("b.txt", .regular 1), ("link", .symlink (.sibling "b.txt"))], [(1, [7])]⟩
        (downloadRequest "b.txt") =
      .serveContent "attachment; filename=\"b.txt\"" "b.txt" (.regular [7]) := by
  decide

/-- C7, amended. When two uploads succeed one after the other and their file
names have the same sanitized form, the file stored under that name, the one
the handlers open for it, holds exactly the content of the second upload, and
every name of the upload directory that did not lead to the same file as that
name before the uploads opens as it did before them. -/
theorem second_upload_replaces (fs fs1 fs2 : FS) (r1 r2 : Request) (fault1 fault2 : Fault)
    (form1 form2 : List Part) (part1 part2 : Part)
    (hform1 : r1.form = some form1) (hpart1 : filePart form1 "file" = some part1)
    (hform2 : r2.form = some form2) (hpart2 : filePart form2 "file" = some part2)
    (hup1 : handleUpload fs r1 fault1 = (.redirect "/" 303, fs1))
    (hup2 : handleUpload fs1 r2 fault2 = (.redirect "/" 303, fs2))
    (hname : sanitizeName part1.filename = sanitizeName part2.filename) :
    sanitizeName (Base part1.filename) = sanitizeName (Base part2.filename) ∧
    fs2.openEntry (sanitizeName (Base part2.filename)) = .ok (.regular part2.content) ∧
    osOpen fs2 (Join [fs2.baseDir, uploadDir, sanitizeName (Base part2.filename)]) =
      .ok (.regular part2.content) ∧
    ∀ m, fs.resolve m ≠ fs.resolve (sanitizeName (Base part2.filename)) →
      fs2.openEntry m = fs.openEntry m := by
  obtain ⟨f1, p1, -, hf1, hp1, hel1, hst1⟩ := handleUpload_redirect fs fs1 r1 fault1 hup1
  obtain ⟨f2, p2, -, hf2, hp2, hel2, hst2⟩ := handleUpload_redirect fs1 fs2 r2 fault2 hup2
  rw [hform1] at hf1
  cases hf1
  rw [hpart1] at hp1
  cases hp1
  rw [hform2] at hf2
  cases hf2
  rw [hpart2] at hp2
  cases hp2
  have hdot1 : sanitizeName (Base part1.filename) ≠ "." := by
    intro h
    rw [h] at hel1
    exact hel1.2.1 rfl
  have hdot2 : sanitizeName (Base part2.filename) ≠ "." := by
    intro h
    rw [h] at hel2
    exact hel2.2.1 rfl
  have hsame : sanitizeName (Base part1.filename) = sanitizeName (Base part2.filename) := by
    rw [← sanitizeName_sanitizeName _ hdot1, ← sanitizeName_sanitizeName _ hdot2, hname]
  rw [hsame] at hst1
  obtain ⟨i, hres1, -⟩ := stored_post fs fs1 _ _ hst1
  obtain ⟨i2, hres2, hcontent2⟩ := stored_post fs1 fs2 _ _ hst2
  have hopen : fs2.openEntry (sanitizeName (Base part2.filename)) =
      .ok (.regular part2.content) := by
    unfold FS.openEntry
    rw [hres2]
    simp only [hcontent2]
  refine ⟨hsame, hopen, ?_, ?_⟩
  · rw [osOpen_element fs2 _ hel2, hopen]
  · intro m hm
    obtain ⟨ho1, hr1⟩ := stored_others fs fs1 _ m _ hst1 hm
    have hm1 : fs1.resolve m ≠ fs1.resolve (sanitizeName (Base part2.filename)) := by
      rw [hr1, hres1]
      intro h
      rcases hst1 with ⟨j, hrj, hfs⟩ | ⟨t, hrt, hfs⟩
      · have hij : i = j := by
          rw [hfs, resolve_setContent, hrj] at hres1
          cases hres1
          rfl
        rw [hrj, ← hij] at hm
        exact hm h
      · have hused := followLinks_file_used fs _ m _ h
        have hi : i = fs.freshIno := by
          have ht := followLinks_missing _ _ _ _ hrt
          rw [hfs, resolve_setContent] at hres1
          unfold FS.resolve at hres1 hrt
          have : followLinks (setKey t (.regular fs.freshIno) fs.entries) (maxLinks + 1)
              (sanitizeName (Base part2.filename)) = .file i := hres1
          rw [followLinks_setKey _ _ _ _ _ ht, hrt] at this
          simp at this
          exact this.symm
        rw [hi] at hused
        exact Nat.lt_irrefl _ (lt_freshIno fs _ hused)
    obtain ⟨ho2, -⟩ := stored_others fs1 fs2 _ m _ hst2 hm1
    rw [ho2, ho1]

/-- Two uploads under the name `a.txt`, the second one shorter than the first,
beside an existing `b.txt` and a link to it. -/
theorem second_upload_replaces_witness :
    sanitizeName (Base "x/a.txt") = sanitizeName (Base "a.txt") ∧
    FS.openEntry
        ⟨"/srv/app", [("b.txt", .regular 1), ("link", .symlink (.sibling "b.txt")),
          ("a.txt", .regular 2)], [(1, [9]), (2, [7])]⟩
        (sanitizeName (Base "a.txt")) = .ok (.regular [7]) ∧
    osOpen
        ⟨"/srv/app", [("b.txt", .regular 1), ("link", .symlink (.sibling "b.txt")),
          ("a.txt", .regular 2)], [(1, [9]), (2, [7])]⟩
        (Join ["/srv/app", uploadDir, sanitizeName (Base "a.txt")]) = .ok (.regular [7]) ∧
    ∀ m,
      FS.resolve ⟨"/srv/app", [("b.txt", .regular 1), ("link", .symlink (.sibling "b.txt"))],
          [(1, [9])]⟩ m ≠
        FS.resolve ⟨"/srv/app", [("b.txt", .regular 1), ("link", .symlink (.sibling "b.txt"))],
          [(1, [9])]⟩ (sanitizeName (Base "a.txt")) →
      FS.openEntry
          ⟨"/srv/app", [("b.txt", .regular 1), ("link", .symlink (.sibling "b.txt")),
            ("a.txt", .regular 2)], [(1, [9]), (2, [7])]⟩ m =
        FS.openEntry
          ⟨"/srv/app", [("b.txt", .regular 1), ("link", .symlink (.sibling "b.txt"))],
            [(1, [9])]⟩ m :=
  second_upload_replaces
    ⟨"/srv/app", [("b.txt", .regular 1), ("link", .symlink (.sibling "b.txt"))], [(1, [9])]⟩
    ⟨"/srv/app", [("b.txt", .regular 1), ("link", .symlink (.sibling "b.txt")),
      ("a.txt", .regular 2)], [(1, [9]), (2, [1, 2, 3, 4])]⟩
    ⟨"/srv/app", [("b.txt", .regular 1), ("link", .symlink (.sibling "b.txt")),
      ("a.txt", .regular 2)], [(1, [9]), (2, [7])]⟩
    (uploadRequest "x/a.txt" [1, 2, 3, 4]) (uploadRequest "a.txt" [7]) .none .none
    [⟨"file", "x/a.txt", [1, 2, 3, 4]⟩] [⟨"file", "a.txt", [7]⟩]
    ⟨"file", "x/a.txt", [1, 2, 3, 4]⟩ ⟨"file", "a.txt", [7]⟩
    (by decide) (by decide) (by decide) (by decide) (by decide) (by decide) (by decide)

/-- A sanitized name other than `.` and `..` resolves to the entry of that name
in the upload directory. -/
theorem locate_sanitizeName (fs : FS) (f : String) (h1 : sanitizeName f ≠ ".")
    (h2 : sanitizeName f ≠ "..") :
    (Join [fs.baseDir, uploadDir, sanitizeName f]).data =
      fs.uploadPath.data ++ PathSeparator :: (sanitizeName f).data ∧
    fs.locate (Join [fs.baseDir, uploadDir, sanitizeName f]) = .entry (sanitizeName f) := by
  rcases sanitizeName_cases f with h | h | h
  · exact absurd h h1
  · exact absurd h h2
  · refine ⟨?_, locate_element fs _ h⟩
    rw [Join_upload_name_data, joinChars_element _ _ h]
    rfl

/-- C1 fails on the code: the file name `..` is sanitized to `..`, and the path
the handlers open is then the parent of the upload directory; the empty file
name (the bare path `/files/`) is sanitized to `.`, and the path is the upload
directory itself.  The name `../../etc/passwd` does resolve to the entry
`passwd`. -/
theorem sanitized_path_leaves_upload_dir (fs : FS) :
    sanitizeName ".." = ".." ∧
    Join [fs.baseDir, uploadDir, sanitizeName ".."] = Clean fs.baseDir ∧
    fs.locate (Join [fs.baseDir, uploadDir, sanitizeName ".."]) = .parentDir ∧
    sanitizeName "" = "." ∧
    Join [fs.baseDir, uploadDir, sanitizeName ""] = fs.uploadPath ∧
    fs.locate (Join [fs.baseDir, uploadDir, sanitizeName ""]) = .uploadDir ∧
    Join ["/srv/app", uploadDir, sanitizeName ".."] = "/srv/app" ∧
    Join ["/srv/app", uploadDir, sanitizeName ""] = "/srv/app/shared_files" ∧
    Join ["/srv/app", uploadDir, sanitizeName "../../etc/passwd"] =
      "/srv/app/shared_files/passwd" := by
  have hdd : sanitizeName ".." = ".." := by decide
  have hd : sanitizeName "" = "." := by decide
  refine ⟨hdd, ?_, ?_, hd, ?_, ?_, by decide, by decide, by decide⟩
  · rw [hdd]
    apply string_eq_of_data
    rw [Join_upload_name_data]
    exact joinChars_dotdot _
  · rw [hdd]
    exact locate_dotdot fs
  · rw [hd]
    apply string_eq_of_data
    rw [Join_upload_name_data]
    exact joinChars_dot _
  · rw [hd]
    exact locate_dot fs

/-- C3 fails on the code: a name that trims to the empty string is sanitized to
`.`, and a name made of separators to `_`; neither is the empty string. -/
theorem sanitizeName_blank :
    sanitizeName "" = "." ∧ sanitizeName " \t\n " = "." ∧
    sanitizeName "/" = "_" ∧ sanitizeName " /// " = "_" := by
  decide

/-- C5 fails on the code: for the bare path `/files/` the sanitized name is `.`,
no shared file has that name, and `handleDownload` opens the upload directory
and hands it to `http.ServeContent` instead of answering 404. -/
theorem download_bare_path (fs : FS) :
    sanitizeName (TrimPrefix (downloadRequest "").path "/files/") = "." ∧
    handleDownload fs (downloadRequest "") =
      .serveContent "attachment; filename=\".\"" "." .directory ∧
    handleDownload fs (downloadRequest "") ≠ .notFound := by
  have hname : sanitizeName (TrimPrefix (downloadRequest "").path "/files/") = "." := by decide
  have hget : (downloadRequest "").method = "GET" := rfl
  have hopen : osOpen fs (Join [fs.baseDir, uploadDir, "."]) = .ok .directory := by
    unfold osOpen
    rw [locate_dot]
  have hresp : handleDownload fs (downloadRequest "") =
      .serveContent "attachment; filename=\".\"" "." .directory := by
    unfold handleDownload
    simp only [hget, hname, hopen]
    decide
  refine ⟨hname, hresp, ?_⟩
  rw [hresp]
  simp

/-- C10. For every string `s`, `sanitizeName s` is not empty: `filepath.Base`
never returns the empty string and the replacement of separators keeps the
length.  So `handleUpload` never answers with the invalid-name error, and
`handleDownload` is the handler without its empty-name branch. -/
theorem sanitizeName_nonempty :
    (∀ p : String, Base p ≠ "") ∧
    (∀ s : String, (sanitizeName s).data.length = (Base (TrimSpace s)).data.length) ∧
    (∀ s : String, sanitizeName s ≠ "") ∧
    (∀ (fs : FS) (r : Request) (fault : Fault),
      (handleUpload fs r fault).1 ≠ .error "文件名无效" 400) ∧
    (∀ (fs : FS) (r : Request),
      handleDownload fs r =
        if r.method ≠ "GET" then .error "方法不支持" 405
        else
          match osOpen fs
            (Join [fs.baseDir, uploadDir, sanitizeName (TrimPrefix r.path "/files/")]) with
          | .error _ => .notFound
          | .ok f =>
            .serveContent
              ("attachment; filename=\"" ++ sanitizeName (TrimPrefix r.path "/files/") ++ "\"")
              (sanitizeName (TrimPrefix r.path "/files/")) f) := by
  refine ⟨?_, ?_, sanitizeName_ne_empty, ?_, ?_⟩
  · intro p h
    exact baseChars_ne_nil _ (congrArg String.data h)
  · intro s
    rw [sanitizeName_data, List.length_map]
    rfl
  · intro fs r fault
    unfold handleUpload
    have hne : ∀ s, sanitizeName s ≠ "" := sanitizeName_ne_empty
    split
    · simp
    · split
      · simp
      · split
        · simp
        · simp only [hne, if_false]
          split
          · simp
          · split <;> simp
  · intro fs r
    unfold handleDownload
    simp only [sanitizeName_ne_empty, if_false]


end LanShare
